import Mathlib

/-!
Verification of the xstate actor/interpreter specification against the
repository sources.

Part 1 embeds `src/packages/xstate-inspect/src/serialize.ts` over a JSON
data model.  Part 2 models the interpreter / actor core described by the
specification (the core itself is not present under `src/`, only its
behavioural tests are), and proves the spawn, sync, autoForward,
sendParent, promise-actor and determinism properties against that model.
-/

namespace XStateSpec

/-! ## Part 1: JSON data model and the serialize.ts embedding -/

/-- JSON values: the data model over which `JSON.stringify` operates.
Objects are ordered association lists of fields, as in JavaScript. -/
inductive JValue where
  | null : JValue
  | bool (b : Bool) : JValue
  | num (n : Int) : JValue
  | str (s : String) : JValue
  | arr (items : List JValue) : JValue
  | obj (fields : List (String × JValue)) : JValue

/-- Escape one character for a JSON string literal (quote and backslash). -/
def jsonEscapeChar (c : Char) : String :=
  if c = '"' then "\\\"" else if c = '\\' then "\\\\" else String.singleton c

/-- Render a JSON string literal. -/
def jsonQuote (s : String) : String :=
  "\"" ++ String.join (s.data.map jsonEscapeChar) ++ "\""

mutual

/-- Plain JSON serialization (JSON.stringify with no replacer). -/
def stringify : JValue → String
  | .null => "null"
  | .bool true => "true"
  | .bool false => "false"
  | .num n => toString n
  | .str s => jsonQuote s
  | .arr items => "[" ++ stringifyItems items ++ "]"
  | .obj fields => "\x7b" ++ stringifyFields fields ++ "\x7d"

/-- Serialize the comma-separated items of a JSON array. -/
def stringifyItems : List JValue → String
  | [] => ""
  | [v] => stringify v
  | v :: rest => stringify v ++ "," ++ stringifyItems rest

/-- Serialize the comma-separated fields of a JSON object. -/
def stringifyFields : List (String × JValue) → String
  | [] => ""
  | [kv] => jsonQuote kv.1 ++ ":" ++ stringify kv.2
  | kv :: rest => jsonQuote kv.1 ++ ":" ++ stringify kv.2 ++ "," ++ stringifyFields rest

end

/-- First-match field lookup in a JSON object's field list (JS property
access on an object, where keys are unique). -/
def getField (fields : List (String × JValue)) (k : String) : Option JValue :=
  match fields with
  | [] => none
  | kv :: rest => if kv.1 = k then some kv.2 else getField rest k

/-- A `Replacer` as in xstate-inspect's types: a function from (key, value)
to a replacement value; returning `none` models returning `undefined`,
which makes `JSON.stringify` omit the property. -/
def Replacer := String → JValue → Option JValue

/-- Model of the replacer pass of `JSON.stringify(value, replacer)` on the
top-level properties of an object: each property is passed to the
replacer and dropped when the replacer returns `undefined`.  (The JS
replacer also recurses into the values it returns; that recursion is not
representable as a total function and is not exercised by the claims.) -/
def applyReplacer (r : Option Replacer) (fields : List (String × JValue)) :
    List (String × JValue) :=
  match r with
  | none => fields
  | some r => fields.filterMap fun kv => (r kv.1 kv.2).map fun v => (kv.1, v)

/-- The `selected` object built by `selectivelyStringify`:
`for key of keys: selected[key] = value[key]`.  A key missing from
`value` yields an `undefined` property, which `JSON.stringify` omits, so
it is dropped here. -/
def selectedOf (value : List (String × JValue)) (keys : List String) :
    List (String × JValue) :=
  keys.filterMap fun k => (getField value k).map fun v => (k, v)

/-- JS object spread `\x7b...a, ...b\x7d`: keys of `a` keep their position,
with values overridden by `b` where present; keys only in `b` are
appended in order. -/
def spreadMerge (a b : List (String × JValue)) : List (String × JValue) :=
  (a.map fun kv => (kv.1, (getField b kv.1).getD kv.2)) ++
    b.filter fun kv => (getField a kv.1).isNone

/-- Embedding of `selectivelyStringify` from
`src/packages/xstate-inspect/src/serialize.ts`: select the listed keys,
serialize them with the replacer, parse the result back, then stringify
the spread of the original value with the parsed selection.
`JSON.parse (stringify x)` is the identity on the JSON data model, so
the parse/stringify round-trip of `selected` is the replacer-processed
field list itself. -/
def selectivelyStringify (value : List (String × JValue)) (keys : List String)
    (replacer : Option Replacer) : String :=
  let selected := selectedOf value keys
  let serialized := applyReplacer replacer selected
  stringify (.obj (spreadMerge value serialized))

/-- The three self-referential fields destructured away by
`stringifyState` before serialization. -/
def stateSelfRefKeys : List String := ["machine", "configuration", "_internalQueue"]

/-- The keys `stringifyState` passes to `selectivelyStringify`. -/
def stateStringifyKeys : List String := ["context", "event", "_event", "actions"]

/-- Embedding of `stringifyState` from
`src/packages/xstate-inspect/src/serialize.ts`: destructure
`machine`, `configuration` and `_internalQueue` out of the state object
and selectively stringify the rest. -/
def stringifyState (state : List (String × JValue)) (replacer : Option Replacer) :
    String :=
  selectivelyStringify
    (state.filter fun kv => !(stateSelfRefKeys.contains kv.1))
    stateStringifyKeys replacer

/-- The object whose plain stringification `stringifyState` returns. -/
def stringifyStateObj (state : List (String × JValue)) (replacer : Option Replacer) :
    List (String × JValue) :=
  let value := state.filter fun kv => !(stateSelfRefKeys.contains kv.1)
  spreadMerge value (applyReplacer replacer (selectedOf value stateStringifyKeys))

/-! ## Part 2: spec-modelled interpreter / actor core

The interpreter, actor and messaging core of this repository is not under
`src/` (only its behavioural tests are), so the definitions below are
modelled from the specification, faithful to its words, and the claims
about that core are settled against them. -/

/-- Modelled from the spec: an Event is a "tagged value \x7btype, payload\x7d"
(§3 Data model); `id` and `data` model the payload fields the scenarios
use (`ADD\x7bid\x7d`, completion data). -/
structure EventObj where
  type : String
  id : Nat := 0
  data : Nat := 0
deriving Repr, DecidableEq

/-- Modelled from the spec: spawn options `\x7bid, sync?, autoForward?\x7d`
(§6); both flags default to off (§4.4, §4.5). -/
structure SpawnOpts where
  sync : Bool := false
  autoForward : Bool := false
deriving Repr, DecidableEq

/-- Modelled from the spec: the actions executed during transition
application that the tested scenarios need (§4.1, §4.3, §4.6): send to
the parent, self-raise, spawn a nested machine (indexed into the
machine environment, stored in context under the event's `id` payload),
send to the child actor stored under the event's `id` payload, and a
context assignment. -/
inductive ActionSpec where
  | sendParentA (etype : String)
  | raiseA (etype : String)
  | spawnAtEventId (machineIdx : Nat) (opts : SpawnOpts)
  | sendToRefAtEventId (etype : String)
  | assignValue (n : Nat)
deriving Repr, DecidableEq

/-- Modelled from the spec: a Transition with optional target (none =
internal/self transition, §3) and an ordered action list. -/
structure TransitionDef where
  target : Option String := none
  actions : List ActionSpec := []
deriving Repr, DecidableEq

/-- Modelled from the spec: a StateNode with entry actions, per-event
transition candidates and a final marker (§3). -/
structure StateDef where
  entry : List ActionSpec := []
  onTable : List (String × TransitionDef) := []
  isFinal : Bool := false
deriving Repr, DecidableEq

/-- Modelled from the spec: a MachineDefinition — immutable state graph
with an initial state, named states and machine-level transitions (§3);
the scenarios under test use flat machines. -/
structure MachineDef where
  initial : String
  states : List (String × StateDef) := []
  onTable : List (String × TransitionDef) := []
deriving Repr, DecidableEq

/-- Interpreter status (§3): idle, running, done or stopped. -/
inductive Status where
  | idle
  | running
  | done
  | stopped
deriving Repr, DecidableEq

/-- Modelled from the spec: one Interpreter instance (§3): machine (by
index into the environment), current state, context (`refs` holds child
actor refs keyed by payload id, `value` plain data), FIFO mailbox,
recorded parent, status, and the registries of children spawned with
`sync` and with `autoForward`. -/
structure Proc where
  machineIdx : Nat
  state : String := ""
  refs : List (Nat × Nat) := []
  value : Nat := 0
  mailbox : List EventObj := []
  parent : Option Nat := none
  status : Status := .running
  syncChildren : List Nat := []
  autoForwardChildren : List Nat := []
deriving Repr, DecidableEq

/-- Modelled from the spec: the whole single-process actor system — a
fixed machine environment, the live Interpreters keyed by session id, a
fresh-session counter, and the list of Interpreters whose onDone
observers have fired (§2, §4.2). -/
structure Sys where
  env : List MachineDef
  procs : List (Nat × Proc) := []
  nextSession : Nat := 0
  doneNotified : List Nat := []
deriving Repr, DecidableEq

/-- First-match lookup in the session registry. -/
def lookupProc : List (Nat × Proc) → Nat → Option Proc
  | [], _ => none
  | pr :: rest, pid => if pr.1 = pid then some pr.2 else lookupProc rest pid

/-- Look up an Interpreter by session id. -/
def getProc (sys : Sys) (pid : Nat) : Option Proc :=
  lookupProc sys.procs pid

/-- Update one Interpreter's record in place. -/
def updateProc (sys : Sys) (pid : Nat) (f : Proc → Proc) : Sys :=
  { sys with procs := sys.procs.map fun pr => if pr.1 = pid then (pr.1, f pr.2) else pr }

/-- Modelled from the spec: delivering an event to another actor only
enqueues it into that actor's FIFO mailbox; a send to a nonexistent or
stopped actor id is silently dropped (§5, §7). -/
def enqueueEvent (sys : Sys) (target : Nat) (e : EventObj) : Sys :=
  match getProc sys target with
  | none => sys
  | some p =>
    if p.status = .stopped then sys
    else updateProc sys target fun q => { q with mailbox := q.mailbox ++ [e] }

/-- Modelled from the spec: a self-raised event is inserted at the front
of processing, ahead of externally enqueued events (§3 Mailbox). -/
def raiseEvent (sys : Sys) (pid : Nat) (e : EventObj) : Sys :=
  updateProc sys pid fun q => { q with mailbox := e :: q.mailbox }

/-- The synthetic initialization event a freshly created Interpreter
processes to enter its initial configuration. -/
def initEvent : EventObj := { type := "xstate.init" }

/-- The reserved "update" event of the SyncBridge, carrying the child's
id (§4.4). -/
def updateEvent (c : Nat) : EventObj := { type := "xstate.update", id := c }

/-- The completion event a done child addresses to its parent, carrying
the child's id (doneInvoke pattern, §4.2). -/
def doneInvokeEvent (c : Nat) : EventObj := { type := "done.invoke", id := c }

/-- The error event a failed single-value source addresses to its
parent (§4.3). -/
def errorEvent (c : Nat) : EventObj := { type := "error.platform", id := c }

/-- Internally synthesized event types, excluded from autoForward (§4.5). -/
def reservedEvent (e : EventObj) : Bool :=
  e.type == "xstate.init" || e.type == "xstate.update" ||
    e.type == "done.invoke" || e.type == "error.platform"

/-- Modelled from the spec: `sendParent(event)` enqueues into the Mailbox
of whichever Interpreter was recorded as this actor's parent at spawn
time; no-op if there is no parent or the parent is no longer active
(§4.6).  Totality of this function is the never-throws guarantee. -/
def sendParentTo (sys : Sys) (selfId : Nat) (e : EventObj) : Sys :=
  match getProc sys selfId with
  | none => sys
  | some p =>
    match p.parent with
    | none => sys
    | some par =>
      match getProc sys par with
      | none => sys
      | some q => if q.status = .running then enqueueEvent sys par e else sys

/-- Look up the child session stored under a context key. -/
def lookupRef : List (Nat × Nat) → Nat → Option Nat
  | [], _ => none
  | r :: rest, k => if r.1 = k then some r.2 else lookupRef rest k

/-- Modelled from the spec: spawning a nested machine constructs a new
Interpreter bound with the spawner as its reply target and auto-starts
it (§4.3); the fresh session id is recorded in the spawner's context
under `key`, and in the spawner's sync / autoForward registries as the
options demand (§4.4, §4.5). -/
def spawnChildProc (sys : Sys) (selfId : Nat) (machineIdx : Nat) (opts : SpawnOpts)
    (key : Nat) : Sys :=
  let child := sys.nextSession
  let sys1 := { sys with
    procs := sys.procs ++
      [(child, { machineIdx := machineIdx, mailbox := [initEvent], parent := some selfId })],
    nextSession := child + 1 }
  updateProc sys1 selfId fun q =>
    { q with
      refs := (key, child) :: q.refs,
      syncChildren := if opts.sync then child :: q.syncChildren else q.syncChildren,
      autoForwardChildren :=
        if opts.autoForward then child :: q.autoForwardChildren else q.autoForwardChildren }

/-- Execute one action for Interpreter `pid` processing event `e` (§4.1). -/
def execAction (pid : Nat) (e : EventObj) (sys : Sys) (a : ActionSpec) : Sys :=
  match a with
  | .sendParentA t => sendParentTo sys pid { type := t }
  | .raiseA t => raiseEvent sys pid { type := t }
  | .spawnAtEventId m opts => spawnChildProc sys pid m opts e.id
  | .sendToRefAtEventId t =>
    match getProc sys pid with
    | none => sys
    | some p =>
      match lookupRef p.refs e.id with
      | none => sys
      | some c => enqueueEvent sys c { type := t }
  | .assignValue n => updateProc sys pid fun q => { q with value := n }

/-- Execute an ordered action list (§4.1). -/
def execActions (pid : Nat) (e : EventObj) (sys : Sys) (acts : List ActionSpec) : Sys :=
  acts.foldl (execAction pid e) sys

/-- Look up a state definition inside a machine. -/
def getStateDef (m : MachineDef) (st : String) : Option StateDef :=
  (m.states.find? fun s => s.1 == st).map Prod.snd

/-- First transition whose event-type matches (including the `*`
wildcard) wins (§4.1). -/
def lookupTransition (table : List (String × TransitionDef)) (etype : String) :
    Option TransitionDef :=
  (table.find? fun t => t.1 == etype || t.1 == "*").map Prod.snd

/-- Modelled from the spec: the TransitionResolver searches the active
node's own transition table before falling back to the machine-level
catch-all table; if nothing matches, the event is a no-op (§4.1). -/
def resolveTransition (m : MachineDef) (st : String) (etype : String) :
    Option TransitionDef :=
  match getStateDef m st with
  | none => lookupTransition m.onTable etype
  | some sd =>
    match lookupTransition sd.onTable etype with
    | some t => some t
    | none => lookupTransition m.onTable etype

/-- The machine an Interpreter runs. -/
def machineOf (sys : Sys) (p : Proc) : Option MachineDef :=
  sys.env.get? p.machineIdx

/-- Modelled from the spec: entering a target state runs its entry
actions; entering a final node sets status done, notifies onDone
observers and — if this Interpreter was itself spawned by a parent —
enqueues a completion event addressed to the parent carrying this
actor's id (§4.1, §4.2). -/
def enterState (sys : Sys) (pid : Nat) (tgt : String) (e : EventObj) : Sys :=
  match getProc sys pid with
  | none => sys
  | some p =>
    match (machineOf sys p).bind fun m => getStateDef m tgt with
    | none => sys
    | some sd =>
      let sys1 := updateProc sys pid fun q => { q with state := tgt }
      let sys2 := execActions pid e sys1 sd.entry
      if sd.isFinal then
        let sys3 := updateProc sys2 pid fun q => { q with status := .done }
        let sys4 := { sys3 with doneNotified := sys3.doneNotified ++ [pid] }
        match p.parent with
        | none => sys4
        | some par => enqueueEvent sys4 par (doneInvokeEvent pid)
      else sys2

/-- Modelled from the spec: process one popped event — initialization
enters the initial configuration; otherwise resolve the transition,
execute its action list, and enter the target when the transition is
external; an unmatched event is a no-op (§4.1, §4.2). -/
def coreProcess (sys : Sys) (pid : Nat) (e : EventObj) : Sys :=
  match getProc sys pid with
  | none => sys
  | some p =>
    match machineOf sys p with
    | none => sys
    | some m =>
      if e.type == "xstate.init" && p.state == "" then
        enterState sys pid m.initial e
      else
        match resolveTransition m p.state e.type with
        | none => sys
        | some t =>
          let sys1 := execActions pid e sys t.actions
          match t.target with
          | none => sys1
          | some tgt => enterState sys1 pid tgt e

/-- The published snapshot of an Interpreter: current state, context and
status (§6). -/
def snapshotOf (sys : Sys) (pid : Nat) : Option (String × Nat × List (Nat × Nat) × Status) :=
  (getProc sys pid).map fun p => (p.state, p.value, p.refs, p.status)

/-- Modelled from the spec (SyncBridge, §4.4): when the processed
Interpreter's emitted snapshot changed and its parent registered it
with `sync`, a reserved "update" event carrying the child's id is
enqueued into the parent's Mailbox. -/
def syncPhase (old sys : Sys) (pid : Nat) : Sys :=
  if snapshotOf sys pid = snapshotOf old pid then sys
  else
    match getProc sys pid with
    | none => sys
    | some p =>
      match p.parent with
      | none => sys
      | some par =>
        match getProc sys par with
        | none => sys
        | some q =>
          if pid ∈ q.syncChildren then enqueueEvent sys par (updateEvent pid) else sys

/-- Modelled from the spec (AutoForward, §4.5): after the owner finishes
its own processing of an event, the event — unless internally
synthesized — is forwarded unmodified into the Mailbox of every child
registered with `autoForward`. -/
def applyForwards (sys : Sys) (pid : Nat) (e : EventObj) : Sys :=
  if reservedEvent e then sys
  else
    match getProc sys pid with
    | none => sys
    | some p => p.autoForwardChildren.foldl (fun s c => enqueueEvent s c e) sys

/-- Full processing of one event by one Interpreter: core transition
application, then SyncBridge propagation, then autoForward (§4.1–4.5). -/
def processEvent (sys : Sys) (pid : Nat) (e : EventObj) : Sys :=
  applyForwards (syncPhase sys (coreProcess sys pid e) pid) pid e

/-- An Interpreter with pending work: running with a nonempty mailbox. -/
def pendingProc (pr : Nat × Proc) : Bool :=
  pr.2.status == .running && !pr.2.mailbox.isEmpty

/-- Pick the first Interpreter with pending work. -/
def pickPending (sys : Sys) : Option (Nat × Proc) :=
  sys.procs.find? pendingProc

/-- Pop the front event of an Interpreter's mailbox. -/
def popEvent (sys : Sys) (pid : Nat) : Sys :=
  updateProc sys pid fun q => { q with mailbox := q.mailbox.tail }

/-- Modelled from the spec: one scheduling step of the cooperative
single-threaded system — the first Interpreter with pending work pops
its front mailbox event and processes it to completion; `none` means
the system is quiescent (§5). -/
def stepSys (sys : Sys) : Option Sys :=
  match pickPending sys with
  | none => none
  | some (pid, p) =>
    match p.mailbox with
    | [] => none
    | e :: _ => some (processEvent (popEvent sys pid) pid e)

/-- Drain the whole system to quiescence, fuel-bounded. -/
def drainAll : Nat → Sys → Sys
  | 0, sys => sys
  | fuel + 1, sys =>
    match stepSys sys with
    | none => sys
    | some sys1 => drainAll fuel sys1

/-- Instantiate a root Interpreter for machine `machineIdx` (§6): its
initialization event is pending, so starting it computes the initial
configuration and runs its entry actions. -/
def interpretSys (env : List MachineDef) (machineIdx : Nat) : Sys :=
  { env := env,
    procs := [(0, { machineIdx := machineIdx, mailbox := [initEvent] })],
    nextSession := 1 }

/-- Start a root Interpreter and drain to quiescence (§4.2 start). -/
def startSys (fuel : Nat) (env : List MachineDef) (machineIdx : Nat) : Sys :=
  drainAll fuel (interpretSys env machineIdx)

/-- Send an external event to an Interpreter and drain to quiescence
(run-to-completion, §4.2 send). -/
def sendSys (fuel : Nat) (sys : Sys) (pid : Nat) (e : EventObj) : Sys :=
  drainAll fuel (enqueueEvent sys pid e)

/-! ### The spawning-machines scenario (todoMachine / todosMachine) -/

/-- The child machine A of the scenario: `incomplete` moves to `complete`
on SET_COMPLETE, and `complete`'s entry sends a parent-addressed
completion event (the `todoMachine` of the tests). -/
def todoMachine : MachineDef :=
  { initial := "incomplete",
    states := [
      ("incomplete", { onTable := [("SET_COMPLETE", { target := some "complete" })] }),
      ("complete", { entry := [.sendParentA "TODO_COMPLETED"] })
    ] }

/-- The parent machine B of the scenario: spawns an instance of machine A
on `ADD\x7bid\x7d` (stored under the event id), forwards SET_COMPLETE to
that child on `SET_COMPLETE\x7bid\x7d`, and moves `active → success`
(final) on the child's completion event (the `todosMachine` of the
tests). -/
def todosMachine : MachineDef :=
  { initial := "active",
    states := [
      ("active", { onTable := [("TODO_COMPLETED", { target := some "success" })] }),
      ("success", { isFinal := true })
    ],
    onTable := [
      ("ADD", { actions := [.spawnAtEventId 0 {}] }),
      ("SET_COMPLETE", { actions := [.sendToRefAtEventId "SET_COMPLETE"] })
    ] }

/-- The machine environment of the scenario: index 0 is machine A, index 1
is machine B. -/
def todosEnv : List MachineDef := [todoMachine, todosMachine]

/-- The tested run: start the parent Interpreter, send `ADD\x7bid:42\x7d`,
then send `SET_COMPLETE\x7bid:42\x7d`, draining to quiescence after each
send (run-to-completion). -/
def todosRun : Sys :=
  let s0 := startSys 8 todosEnv 1
  let s1 := sendSys 8 s0 0 { type := "ADD", id := 42 }
  sendSys 8 s1 0 { type := "SET_COMPLETE", id := 42 }

/-! ### Single-value asynchronous source adapter (promise actors) -/

/-- Modelled from the spec: one settle attempt of the underlying
single-value asynchronous source — resolution with a value or failure
(§4.3). -/
inductive Settle where
  | resolved (v : Nat)
  | failed (v : Nat)
deriving Repr, DecidableEq

/-- Modelled from the spec: the adapter state of an actor spawned from a
single-value asynchronous source: its session id and whether its one
terminal event has already been synthesized (§4.3). -/
structure PromiseActor where
  sessionId : Nat
  terminalSent : Bool := false
deriving Repr, DecidableEq

/-- The terminal event synthesized for a settle outcome: an id-addressed
completion event carrying the resolved value, or an error event (§4.3). -/
def terminalEventOf (pid : Nat) : Settle → EventObj
  | .resolved v => { doneInvokeEvent pid with data := v }
  | .failed v => { errorEvent pid with data := v }

/-- Modelled from the spec: one settle attempt observed by the adapter —
the first settle synthesizes the single terminal event delivered to the
spawning Interpreter's Mailbox; any further settle of the underlying
source synthesizes nothing (§4.3). -/
def promiseSettle (a : PromiseActor) (o : Settle) : PromiseActor × List EventObj :=
  if a.terminalSent then (a, [])
  else ({ a with terminalSent := true }, [terminalEventOf a.sessionId o])

/-- Fold a whole lifetime of settle attempts, collecting every event the
adapter delivers to the spawning Interpreter's Mailbox. -/
def promiseRun (a : PromiseActor) (outcomes : List Settle) : PromiseActor × List EventObj :=
  outcomes.foldl (fun acc o =>
    let next := promiseSettle acc.1 o
    (next.1, acc.2 ++ next.2)) (a, [])

/-! ### Spawn-memo registry -/

/-- Modelled from the spec: the per-Interpreter spawn-memo registry,
keyed by a deterministic id derived from the transition/action site;
`created` counts the underlying actors actually created (and doubles as
the next fresh actor id) (§4.3, §9). -/
structure SpawnRegistry where
  entries : List (String × Nat) := []
  created : Nat := 0
deriving Repr, DecidableEq

/-- Modelled from the spec: a spawn expression consults the registry
under its deterministic site id — a hit returns the already-created
actor, a miss creates the underlying actor and records it (§4.3). -/
def spawnWithMemo (reg : SpawnRegistry) (site : String) : Nat × SpawnRegistry :=
  match (reg.entries.find? fun en => en.1 == site).map Prod.snd with
  | some actor => (actor, reg)
  | none =>
    (reg.created,
     { entries := reg.entries ++ [(site, reg.created)], created := reg.created + 1 })

/-- One evaluation of an initial-entry assign action that spawns one
actor per listed site (the `ctx.items.map(item => spawn(...))` pattern
of the tests). -/
def evalEntrySpawns (reg : SpawnRegistry) (sites : List String) : SpawnRegistry :=
  sites.foldl (fun r s => (spawnWithMemo r s).2) reg

/-- The same initial-entry computation re-executed `n` times before the
initial snapshot is committed. -/
def evalEntrySpawnsN : Nat → SpawnRegistry → List String → SpawnRegistry
  | 0, reg, _ => reg
  | n + 1, reg, sites => evalEntrySpawnsN n (evalEntrySpawns reg sites) sites

/-! ### The ActorRef contract and the inert (null) actor -/

/-- Modelled from the spec: the ActorRef capability contract
`\x7bid, send, subscribe, getSnapshot, stop\x7d` (§6).  Effects are made
observable: `send` yields the deliveries it performs, `subscribe`
whether a subscription is registered, `stopChildren` which actors a
stop call stops. -/
structure ActorRefM where
  id : String
  send : EventObj → List EventObj
  subscribe : Bool
  getSnapshot : Option Nat
  stopChildren : List String

/-- Modelled from the spec: the inert ActorRef produced outside any
running Interpreter — it satisfies the contract but performs no work
(§4.3 spawn invariant). -/
def nullActorRef (name : String) : ActorRefM :=
  { id := name,
    send := fun _ => [],
    subscribe := true,
    getSnapshot := none,
    stopChildren := [] }

/-- Modelled from the spec: a spawn call with the ambient Interpreter
context (`some` session inside an in-progress transition, `none`
outside any running Interpreter).  Outside a service it yields the
inert ActorRef rather than failing — the `Except` result records that
no error is thrown (§4.3). -/
def spawnCall (svc : Option Nat) (name : String) : Except String ActorRefM :=
  match svc with
  | some _ =>
    .ok { id := name,
          send := fun e => [e],
          subscribe := true,
          getSnapshot := some 0,
          stopChildren := [name] }
  | none => .ok (nullActorRef name)

/-! ### Reserved-event discipline and the update-freedom invariant -/

/-- A user-defined action is reserved-free when it cannot synthesize the
reserved "update" event type (§4.4 reserves that type for the
SyncBridge). -/
def actionReservedFree : ActionSpec → Bool
  | .sendParentA t => t != "xstate.update"
  | .raiseA t => t != "xstate.update"
  | .sendToRefAtEventId t => t != "xstate.update"
  | .spawnAtEventId _ _ => true
  | .assignValue _ => true

/-- All actions of a transition are reserved-free. -/
def transitionReservedFree (t : TransitionDef) : Bool :=
  t.actions.all actionReservedFree

/-- All actions reachable in a machine are reserved-free. -/
def machineReservedFree (m : MachineDef) : Bool :=
  (m.states.all fun s =>
    s.2.entry.all actionReservedFree &&
      s.2.onTable.all fun tr => transitionReservedFree tr.2) &&
    (m.onTable.all fun tr => transitionReservedFree tr.2)

/-- Every machine of the environment is reserved-free. -/
def envReservedFree (env : List MachineDef) : Bool :=
  env.all machineReservedFree

/-- No Interpreter has `c` registered as a sync-spawned child. -/
def NoSync (c : Nat) (sys : Sys) : Prop :=
  ∀ pr ∈ sys.procs, c ∉ pr.2.syncChildren

/-- No Mailbox holds the reserved "update" event carrying id `c`. -/
def NoUpd (c : Nat) (sys : Sys) : Prop :=
  ∀ pr ∈ sys.procs, updateEvent c ∉ pr.2.mailbox

/-- Update-freedom for child `c`: `c` is a known session (below the
fresh-session counter), no Interpreter registered `c` with `sync`, and
no "update" event carrying `c` is pending anywhere. -/
def UpdateFree (c : Nat) (sys : Sys) : Prop :=
  c < sys.nextSession ∧ NoSync c sys ∧ NoUpd c sys

/-! ### Runs of the Interpreter as a relation -/

/-- Modelled from the spec: a completed run of the cooperative system —
repeatedly perform a scheduling step until quiescence (§5, §8). -/
inductive SysExec : Sys → Sys → Prop where
  | quiescent (sys : Sys) : stepSys sys = none → SysExec sys sys
  | step (sys mid last : Sys) : stepSys sys = some mid → SysExec mid last → SysExec sys last

/-- The system holding one root Interpreter for machine `machineIdx`
with initial context `ctx0` and the ordered input event sequence
pending in its Mailbox (§8 Determinism). -/
def loadRun (env : List MachineDef) (machineIdx : Nat) (ctx0 : Nat)
    (events : List EventObj) : Sys :=
  { env := env,
    procs := [(0, { machineIdx := machineIdx, value := ctx0, mailbox := initEvent :: events })],
    nextSession := 1 }

/-! ## Theorems -/

/-! ### Lemmas about JSON objects and the serialize.ts embedding -/

theorem getField_nil (k : String) : getField [] k = none := rfl

theorem getField_cons (kv : String × JValue) (rest : List (String × JValue)) (k : String) :
    getField (kv :: rest) k = if kv.1 = k then some kv.2 else getField rest k := rfl

theorem applyReplacer_some (r : Replacer) (fields : List (String × JValue)) :
    applyReplacer (some r) fields
      = fields.filterMap fun kv => (r kv.1 kv.2).map fun v => (kv.1, v) := rfl

theorem applyReplacer_none_def (fields : List (String × JValue)) :
    applyReplacer none fields = fields := rfl

theorem getField_map_getD (a b : List (String × JValue)) (k : String) :
    getField (a.map fun kv => (kv.1, (getField b kv.1).getD kv.2)) k
      = (getField a k).map fun v => (getField b k).getD v := by
  induction a with
  | nil => rfl
  | cons kv rest ih =>
    rw [List.map_cons, getField_cons, getField_cons]
    by_cases hk : kv.1 = k
    · subst hk
      simp
    · simp only [if_neg hk]
      exact ih

theorem getField_filter_pos {p : String → Bool} {k : String}
    (l : List (String × JValue)) (h : p k = true) :
    getField (l.filter fun kv => p kv.1) k = getField l k := by
  induction l with
  | nil => rfl
  | cons kv rest ih =>
    rw [List.filter_cons]
    by_cases hk : kv.1 = k
    · subst hk
      simp [h, getField_cons]
    · by_cases hp : p kv.1
      · rw [if_pos hp, getField_cons, if_neg hk, ih, getField_cons, if_neg hk]
      · rw [if_neg hp, ih, getField_cons, if_neg hk]

theorem getField_filter_neg {p : String → Bool} {k : String}
    (l : List (String × JValue)) (h : p k = false) :
    getField (l.filter fun kv => p kv.1) k = none := by
  induction l with
  | nil => rfl
  | cons kv rest ih =>
    rw [List.filter_cons]
    by_cases hk : kv.1 = k
    · have hp : ¬(p kv.1 = true) := by
        rw [hk, h]
        simp
      rw [if_neg hp]
      exact ih
    · by_cases hp : p kv.1
      · rw [if_pos hp, getField_cons, if_neg hk]
        exact ih
      · rw [if_neg hp]
        exact ih

theorem getField_some_mem {l : List (String × JValue)} {k : String} {v : JValue}
    (h : getField l k = some v) : (k, v) ∈ l := by
  induction l with
  | nil => exact Option.noConfusion h
  | cons kv rest ih =>
    rw [getField_cons] at h
    by_cases hk : kv.1 = k
    · rw [if_pos hk] at h
      have : kv = (k, v) := by
        cases kv
        cases h
        cases hk
        rfl
      rw [← this]
      exact List.mem_cons_self _ _
    · rw [if_neg hk] at h
      exact List.mem_cons_of_mem _ (ih h)

theorem getField_none_of_not_mem_keys {l : List (String × JValue)} {k : String}
    (h : k ∉ l.map Prod.fst) : getField l k = none := by
  induction l with
  | nil => rfl
  | cons kv rest ih =>
    simp only [List.map_cons, List.mem_cons, not_or] at h
    rw [getField_cons, if_neg (fun he => h.1 he.symm)]
    exact ih h.2

theorem getField_nodup_mem {l : List (String × JValue)} {kv : String × JValue}
    (hnd : (l.map Prod.fst).Nodup) (hkv : kv ∈ l) : getField l kv.1 = some kv.2 := by
  induction l with
  | nil => simp at hkv
  | cons kv0 rest ih =>
    simp only [List.map_cons, List.nodup_cons] at hnd
    rcases List.mem_cons.mp hkv with h | h
    · subst h
      rw [getField_cons, if_pos rfl]
    · have hk : kv0.1 ≠ kv.1 := by
        intro he
        exact hnd.1 (he ▸ List.mem_map_of_mem Prod.fst h)
      rw [getField_cons, if_neg hk]
      exact ih hnd.2 h

theorem mem_selectedOf {value : List (String × JValue)} {keys : List String}
    {kv : String × JValue} (h : kv ∈ selectedOf value keys) :
    getField value kv.1 = some kv.2 := by
  rcases List.mem_filterMap.mp h with ⟨k, _, hk⟩
  rcases Option.map_eq_some'.mp hk with ⟨v, hv, he⟩
  cases he
  exact hv

theorem mem_applyReplacer {r : Option Replacer} {fields : List (String × JValue)}
    {kv' : String × JValue} (h : kv' ∈ applyReplacer r fields) :
    ∃ kv ∈ fields, kv'.1 = kv.1 := by
  match r with
  | none => exact ⟨kv', h, rfl⟩
  | some r =>
    rw [applyReplacer_some] at h
    rcases List.mem_filterMap.mp h with ⟨kv, hkv, hf⟩
    rcases Option.map_eq_some'.mp hf with ⟨v, _, he⟩
    cases he
    exact ⟨kv, hkv, rfl⟩

theorem filter_isNone_nil {a b : List (String × JValue)}
    (hb : ∀ kv ∈ b, (getField a kv.1).isSome) :
    (b.filter fun kv => (getField a kv.1).isNone) = [] := by
  rw [List.filter_eq_nil_iff]
  intro kv hkv
  have := hb kv hkv
  simp only [Option.isNone_iff_eq_none]
  intro he
  rw [he] at this
  simp at this

theorem getField_spreadMerge {a b : List (String × JValue)} (k : String)
    (hb : ∀ kv ∈ b, (getField a kv.1).isSome) :
    getField (spreadMerge a b) k = (getField a k).map fun v => (getField b k).getD v := by
  unfold spreadMerge
  rw [filter_isNone_nil hb, List.append_nil, getField_map_getD]

theorem getField_selectedOf (value : List (String × JValue)) (keys : List String)
    (k : String) :
    getField (selectedOf value keys) k = if k ∈ keys then getField value k else none := by
  induction keys with
  | nil => simp [selectedOf, getField_nil]
  | cons k0 rest ih =>
    unfold selectedOf at ih ⊢
    rw [List.filterMap_cons]
    cases hv : getField value k0 with
    | none =>
      simp only [Option.map_none']
      rw [ih]
      by_cases hk : k = k0
      · subst hk
        simp [hv]
      · simp [List.mem_cons, hk]
    | some v =>
      simp only [Option.map_some']
      rw [getField_cons]
      by_cases hk : k0 = k
      · subst hk
        simp [hv]
      · rw [if_neg hk, ih]
        have hne : ¬k = k0 := fun he => hk he.symm
        simp [List.mem_cons, hne]

theorem selectedOf_keys_sublist (value : List (String × JValue)) (keys : List String) :
    ((selectedOf value keys).map Prod.fst).Sublist keys := by
  induction keys with
  | nil => simp [selectedOf]
  | cons k0 rest ih =>
    unfold selectedOf at ih ⊢
    rw [List.filterMap_cons]
    cases hv : getField value k0 with
    | none =>
      simp only [Option.map_none']
      exact ih.cons k0
    | some v =>
      simp only [Option.map_some', List.map_cons]
      exact ih.cons₂ k0

theorem getField_applyReplacer_none {r : Option Replacer}
    {fields : List (String × JValue)} {k : String}
    (h : k ∉ fields.map Prod.fst) : getField (applyReplacer r fields) k = none := by
  cases hg : getField (applyReplacer r fields) k with
  | none => rfl
  | some v =>
    exfalso
    rcases mem_applyReplacer (getField_some_mem hg) with ⟨kv, hkv, hk⟩
    apply h
    rw [show k = kv.1 from hk]
    exact List.mem_map_of_mem _ hkv

theorem getField_applyReplacer_nodup (r : Replacer) {fields : List (String × JValue)}
    (hnd : (fields.map Prod.fst).Nodup) (k : String) :
    getField (applyReplacer (some r) fields) k = (getField fields k).bind (r k) := by
  induction fields with
  | nil => rfl
  | cons kv rest ih =>
    simp only [List.map_cons, List.nodup_cons] at hnd
    rw [applyReplacer_some, List.filterMap_cons]
    rw [applyReplacer_some] at ih
    by_cases hk : kv.1 = k
    · subst hk
      cases hr : r kv.1 kv.2 with
      | none =>
        simp only [hr, Option.map_none']
        have hnone := @getField_applyReplacer_none (some r) rest kv.1 hnd.1
        rw [applyReplacer_some] at hnone
        rw [hnone, getField_cons, if_pos rfl, Option.some_bind, hr]
      | some w =>
        simp only [hr, Option.map_some']
        simp [getField_cons, hr]
    · cases hr : r kv.1 kv.2 with
      | none =>
        simp only [hr, Option.map_none']
        rw [ih hnd.2, getField_cons, if_neg hk]
      | some w =>
        simp only [hr, Option.map_some']
        rw [getField_cons, if_neg hk, getField_cons, if_neg hk]
        exact ih hnd.2

theorem serialized_keys_isSome (state : List (String × JValue)) (r : Option Replacer) :
    ∀ kv ∈ applyReplacer r
      (selectedOf (state.filter fun kv => !(stateSelfRefKeys.contains kv.1))
        stateStringifyKeys),
      (getField (state.filter fun kv => !(stateSelfRefKeys.contains kv.1)) kv.1).isSome := by
  intro kv hkv
  rcases mem_applyReplacer hkv with ⟨kv0, hkv0, hkey⟩
  rw [hkey, mem_selectedOf hkv0]
  rfl

theorem getField_stringifyStateObj (state : List (String × JValue))
    (replacer : Option Replacer) (k : String) :
    getField (stringifyStateObj state replacer) k =
      (getField (state.filter fun kv => !(stateSelfRefKeys.contains kv.1)) k).map
        fun v =>
          (getField
            (applyReplacer replacer
              (selectedOf (state.filter fun kv => !(stateSelfRefKeys.contains kv.1))
                stateStringifyKeys)) k).getD v :=
  getField_spreadMerge k (serialized_keys_isSome state replacer)

theorem selfRef_contains_false {k : String} (h : k ∉ stateSelfRefKeys) :
    (!(stateSelfRefKeys.contains k)) = true := by
  cases hc : stateSelfRefKeys.contains k
  · rfl
  · exact absurd (List.mem_of_elem_eq_true hc) h

/-- C7: for every state snapshot, `stringifyState` serializes an object in
which the self-referential fields `machine`, `configuration` and
`_internalQueue` are absent; every remaining field outside the selected
key list is preserved verbatim for any replacer, and with no replacer
every remaining field is preserved verbatim. -/
theorem stringifyState_redacts (state : List (String × JValue))
    (replacer : Option Replacer) :
    stringifyState state replacer = stringify (.obj (stringifyStateObj state replacer)) ∧
    getField (stringifyStateObj state replacer) "machine" = none ∧
    getField (stringifyStateObj state replacer) "configuration" = none ∧
    getField (stringifyStateObj state replacer) "_internalQueue" = none ∧
    (∀ k, k ∉ stateSelfRefKeys → k ∉ stateStringifyKeys →
      getField (stringifyStateObj state replacer) k = getField state k) ∧
    (∀ k, k ∉ stateSelfRefKeys →
      getField (stringifyStateObj state none) k = getField state k) := by
  refine ⟨rfl, ?_, ?_, ?_, ?_, ?_⟩
  · have hmach : getField (state.filter fun kv => !(stateSelfRefKeys.contains kv.1))
        "machine" = none :=
      @getField_filter_neg (fun s => !(stateSelfRefKeys.contains s)) "machine" state rfl
    rw [getField_stringifyStateObj, hmach]
    rfl
  · have hconf : getField (state.filter fun kv => !(stateSelfRefKeys.contains kv.1))
        "configuration" = none :=
      @getField_filter_neg (fun s => !(stateSelfRefKeys.contains s)) "configuration" state rfl
    rw [getField_stringifyStateObj, hconf]
    rfl
  · have hq : getField (state.filter fun kv => !(stateSelfRefKeys.contains kv.1))
        "_internalQueue" = none :=
      @getField_filter_neg (fun s => !(stateSelfRefKeys.contains s)) "_internalQueue" state rfl
    rw [getField_stringifyStateObj, hq]
    rfl
  · intro k h1 h2
    rw [getField_stringifyStateObj]
    have hserk : getField
        (applyReplacer replacer
          (selectedOf (state.filter fun kv => !(stateSelfRefKeys.contains kv.1))
            stateStringifyKeys)) k = none := by
      apply getField_applyReplacer_none
      intro hmem
      exact h2 ((selectedOf_keys_sublist _ _).subset hmem)
    rw [hserk,
      @getField_filter_pos (fun s => !(stateSelfRefKeys.contains s)) k state
        (selfRef_contains_false h1)]
    cases getField state k <;> rfl
  · intro k h1
    rw [getField_stringifyStateObj, applyReplacer_none_def, getField_selectedOf,
      @getField_filter_pos (fun s => !(stateSelfRefKeys.contains s)) k state
        (selfRef_contains_false h1)]
    by_cases hmem : k ∈ stateStringifyKeys
    · rw [if_pos hmem]
      cases getField state k <;> rfl
    · rw [if_neg hmem]
      cases getField state k <;> rfl

/-- Witness for `stringifyState_redacts` at a concrete snapshot with a
self-referential field, a selected field and a plain field. -/
theorem stringifyState_redacts_witness :
    getField (stringifyStateObj
      [("machine", JValue.str "M"), ("context", JValue.num 5), ("foo", JValue.num 7)]
      none) "machine" = none ∧
    getField (stringifyStateObj
      [("machine", JValue.str "M"), ("context", JValue.num 5), ("foo", JValue.num 7)]
      none) "foo" =
      getField
        [("machine", JValue.str "M"), ("context", JValue.num 5), ("foo", JValue.num 7)]
        "foo" :=
  ⟨(stringifyState_redacts _ none).2.1,
   (stringifyState_redacts _ none).2.2.2.2.1 "foo" (by decide) (by decide)⟩

/-- C10: `selectivelyStringify` applies the replacer only to the listed
keys — the result is the plain stringification of the object in which
exactly the listed keys' values are replaced by their replacer-processed
serializations and every other field is rendered untouched. -/
theorem selectivelyStringify_frame (value : List (String × JValue)) (keys : List String)
    (r : Replacer) (hv : (value.map Prod.fst).Nodup) (hk : keys.Nodup) :
    selectivelyStringify value keys (some r) =
      stringify (.obj (value.map fun kv =>
        if kv.1 ∈ keys then (kv.1, (r kv.1 kv.2).getD kv.2) else kv)) := by
  have hser : ∀ kv ∈ applyReplacer (some r) (selectedOf value keys),
      (getField value kv.1).isSome := by
    intro kv hkv
    rcases mem_applyReplacer hkv with ⟨kv0, hkv0, hkey⟩
    rw [hkey, mem_selectedOf hkv0]
    rfl
  have hnd2 : ((selectedOf value keys).map Prod.fst).Nodup :=
    List.Nodup.sublist (selectedOf_keys_sublist value keys) hk
  have hlist : spreadMerge value (applyReplacer (some r) (selectedOf value keys))
      = value.map fun kv =>
          if kv.1 ∈ keys then (kv.1, (r kv.1 kv.2).getD kv.2) else kv := by
    unfold spreadMerge
    rw [filter_isNone_nil hser, List.append_nil]
    apply List.map_congr_left
    intro kv hkv
    rw [getField_applyReplacer_nodup r hnd2, getField_selectedOf,
      getField_nodup_mem hv hkv]
    by_cases hmem : kv.1 ∈ keys
    · rw [if_pos hmem, if_pos hmem]
      rfl
    · rw [if_neg hmem, if_neg hmem]
      rfl
  show stringify (.obj (spreadMerge value (applyReplacer (some r) (selectedOf value keys))))
    = _
  rw [hlist]

/-- Witness for `selectivelyStringify_frame` at a concrete object and
replacer. -/
theorem selectivelyStringify_frame_witness :
    selectivelyStringify [("a", JValue.num 1), ("b", JValue.num 2)] ["a"]
        (some fun k v => if k = "a" then some (JValue.str "X") else some v) =
      stringify (.obj ([("a", JValue.num 1), ("b", JValue.num 2)].map fun kv =>
        if kv.1 ∈ ["a"] then
          (kv.1, ((fun (k : String) (v : JValue) =>
            if k = "a" then some (JValue.str "X") else some v) kv.1 kv.2).getD kv.2)
        else kv)) :=
  selectivelyStringify_frame _ _ _ (by decide) (by decide)

/-! ### Lemmas about the single-value (promise) source adapter -/

theorem promiseSettle_foldl_sent (outcomes : List Settle) (a : PromiseActor)
    (evs : List EventObj) (h : a.terminalSent = true) :
    outcomes.foldl (fun acc o =>
      let next := promiseSettle acc.1 o
      (next.1, acc.2 ++ next.2)) (a, evs) = (a, evs) := by
  induction outcomes with
  | nil => rfl
  | cons o rest ih =>
    have hs : promiseSettle a o = (a, []) := by
      simp [promiseSettle, h]
    simp only [List.foldl_cons, hs, List.append_nil]
    exact ih

/-- C2: an actor spawned from a single-value asynchronous source delivers
exactly one terminal event to the spawning Interpreter's Mailbox over
its whole lifetime — the id-addressed completion event of the first
resolution, or the error event of the first failure — no matter how
many further times the underlying source settles, and never both. -/
theorem promise_exactly_one_terminal (pid : Nat) (o : Settle) (rest : List Settle) :
    (promiseRun { sessionId := pid } (o :: rest)).2 = [terminalEventOf pid o] ∧
    (promiseRun { sessionId := pid } (o :: rest)).1.terminalSent = true := by
  have hrun : promiseRun { sessionId := pid } (o :: rest)
      = ({ sessionId := pid, terminalSent := true }, [terminalEventOf pid o]) := by
    have hs : promiseSettle { sessionId := pid } o
        = ({ sessionId := pid, terminalSent := true }, [terminalEventOf pid o]) := by
      simp [promiseSettle]
    unfold promiseRun
    simp only [List.foldl_cons, hs, List.nil_append]
    exact promiseSettle_foldl_sent rest _ _ rfl
  rw [hrun]
  exact ⟨rfl, rfl⟩

/-! ### Lemmas about the spawn-memo registry -/

theorem spawnWithMemo_eq_some {reg : SpawnRegistry} {site : String}
    {en : String × Nat} (hf : (reg.entries.find? fun en => en.1 == site) = some en) :
    spawnWithMemo reg site = (en.2, reg) := by
  unfold spawnWithMemo
  rw [hf]
  rfl

theorem spawnWithMemo_miss_snd {reg : SpawnRegistry} {site : String}
    (hf : (reg.entries.find? fun en => en.1 == site) = none) :
    (spawnWithMemo reg site).2
      = { entries := reg.entries ++ [(site, reg.created)], created := reg.created + 1 } := by
  unfold spawnWithMemo
  rw [hf]
  rfl

theorem spawnWithMemo_hit {reg : SpawnRegistry} {site : String}
    (h : site ∈ reg.entries.map Prod.fst) : (spawnWithMemo reg site).2 = reg := by
  have hs : (reg.entries.find? fun en => en.1 == site).isSome := by
    rw [List.find?_isSome]
    rcases List.mem_map.mp h with ⟨en, hen, hkey⟩
    exact ⟨en, hen, by simp [hkey]⟩
  rcases Option.isSome_iff_exists.mp hs with ⟨en, hf⟩
  rw [spawnWithMemo_eq_some hf]

theorem evalEntrySpawns_nil (reg : SpawnRegistry) : evalEntrySpawns reg [] = reg := rfl

theorem evalEntrySpawns_cons (reg : SpawnRegistry) (s0 : String) (rest : List String) :
    evalEntrySpawns reg (s0 :: rest) = evalEntrySpawns (spawnWithMemo reg s0).2 rest := rfl

theorem evalEntrySpawns_stable : ∀ (sites : List String) (reg : SpawnRegistry),
    (∀ s ∈ sites, s ∈ reg.entries.map Prod.fst) → evalEntrySpawns reg sites = reg := by
  intro sites
  induction sites with
  | nil => exact fun reg _ => rfl
  | cons s0 rest ih =>
    intro reg h
    rw [evalEntrySpawns_cons, spawnWithMemo_hit (h s0 (List.mem_cons_self s0 rest))]
    exact ih reg fun s' hs' => h s' (List.mem_cons_of_mem s0 hs')

theorem evalEntrySpawns_fresh : ∀ (sites : List String) (reg : SpawnRegistry),
    sites.Nodup → (∀ s ∈ sites, s ∉ reg.entries.map Prod.fst) →
    (evalEntrySpawns reg sites).created = reg.created + sites.length ∧
    ∀ s, s ∈ (evalEntrySpawns reg sites).entries.map Prod.fst ↔
      (s ∈ reg.entries.map Prod.fst ∨ s ∈ sites) := by
  intro sites
  induction sites with
  | nil =>
    intro reg _ _
    exact ⟨rfl, fun s => by simp [evalEntrySpawns_nil]⟩
  | cons s0 rest ih =>
    intro reg hnd hnew
    have hf : (reg.entries.find? fun en => en.1 == s0) = none := by
      rw [List.find?_eq_none]
      intro en hen
      simp only [beq_iff_eq]
      intro he
      exact hnew s0 (List.mem_cons_self s0 rest) (he ▸ List.mem_map_of_mem Prod.fst hen)
    rw [evalEntrySpawns_cons, spawnWithMemo_miss_snd hf]
    rcases List.nodup_cons.mp hnd with ⟨hs0, hndr⟩
    have hnew1 : ∀ s ∈ rest,
        s ∉ (({ entries := reg.entries ++ [(s0, reg.created)],
                 created := reg.created + 1 } : SpawnRegistry).entries.map Prod.fst) := by
      intro s hs
      simp only [List.map_append, List.mem_append]
      intro hmem
      rcases hmem with hm | hm
      · exact hnew s (List.mem_cons_of_mem s0 hs) hm
      · simp only [List.map_cons, List.map_nil, List.mem_singleton] at hm
        exact hs0 (hm ▸ hs)
    rcases ih _ hndr hnew1 with ⟨hcr, hkeys⟩
    constructor
    · rw [hcr]
      simp only [List.length_cons]
      omega
    · intro s
      rw [hkeys s]
      simp only [List.map_append, List.mem_append, List.map_cons, List.map_nil,
        List.mem_singleton, List.mem_cons]
      tauto

theorem evalEntrySpawnsN_stable : ∀ (n : Nat) (reg : SpawnRegistry) (sites : List String),
    (∀ s ∈ sites, s ∈ reg.entries.map Prod.fst) → evalEntrySpawnsN n reg sites = reg := by
  intro n
  induction n with
  | zero => exact fun reg sites _ => rfl
  | succ m ih =>
    intro reg sites h
    show evalEntrySpawnsN m (evalEntrySpawns reg sites) sites = reg
    rw [evalEntrySpawns_stable sites reg h]
    exact ih reg sites h

/-- C3: a spawn expression evaluated inside an entry action of the
initial configuration creates its underlying actor exactly once: no
matter how many times (`n + 1 ≥ 1`) the entry computation is
re-executed before the initial snapshot is committed, the spawn-memo
registry deduplicates the recomputation, the result equals one single
evaluation, and the number of actors actually created is the number of
distinct spawn sites. -/
theorem initial_entry_spawn_once (n : Nat) (sites : List String) (hnd : sites.Nodup) :
    evalEntrySpawnsN (n + 1) {} sites = evalEntrySpawns {} sites ∧
    (evalEntrySpawnsN (n + 1) {} sites).created = sites.length := by
  have hfresh := evalEntrySpawns_fresh sites {} hnd (by intro s hs; simp)
  have hall : ∀ s ∈ sites, s ∈ (evalEntrySpawns {} sites).entries.map Prod.fst := by
    intro s hs
    exact (hfresh.2 s).mpr (Or.inr hs)
  have hN : evalEntrySpawnsN (n + 1) {} sites = evalEntrySpawns {} sites := by
    show evalEntrySpawnsN n (evalEntrySpawns {} sites) sites = evalEntrySpawns {} sites
    exact evalEntrySpawnsN_stable n _ sites hall
  refine ⟨hN, ?_⟩
  rw [hN, hfresh.1]
  simp

/-- Witness for `initial_entry_spawn_once`: four distinct spawn sites
recomputed three times create exactly four actors. -/
theorem initial_entry_spawn_once_witness :
    evalEntrySpawnsN 3 {} ["s0", "s1", "s2", "s3"]
      = evalEntrySpawns {} ["s0", "s1", "s2", "s3"] ∧
    (evalEntrySpawnsN 3 {} ["s0", "s1", "s2", "s3"]).created = 4 :=
  initial_entry_spawn_once 2 ["s0", "s1", "s2", "s3"] (by decide)

/-- C6: calling spawn outside any running Interpreter yields an inert
ActorRef, not a failure: the result is `ok` (nothing is thrown, nothing
is null), it satisfies the whole ActorRef contract, and it performs no
work — `send` delivers nothing, `getSnapshot` yields nothing, `stop`
stops nothing. -/
theorem spawn_outside_service_inert (name : String) (e : EventObj) :
    spawnCall none name = .ok (nullActorRef name) ∧
    (nullActorRef name).id = name ∧
    (nullActorRef name).send e = [] ∧
    (nullActorRef name).subscribe = true ∧
    (nullActorRef name).getSnapshot = none ∧
    (nullActorRef name).stopChildren = [] :=
  ⟨rfl, rfl, rfl, rfl, rfl, rfl⟩

/-- C8: `sendParent` from an actor whose recorded parent is absent, or
whose parent no longer exists or is no longer active, is a no-op — the
system is left exactly unchanged (and the operation, being a total
function, never throws). -/
theorem sendParent_orphan_noop (sys : Sys) (selfId : Nat) (e : EventObj) (p : Proc)
    (hp : getProc sys selfId = some p)
    (h : p.parent = none ∨
      ∃ par, p.parent = some par ∧
        ∀ q, getProc sys par = some q → q.status ≠ .running) :
    sendParentTo sys selfId e = sys := by
  rcases h with hnone | ⟨par, hpar, hq⟩
  · simp [sendParentTo, hp, hnone]
  · simp only [sendParentTo, hp, hpar]
    cases hg : getProc sys par with
    | none => rfl
    | some q => simp [hq q hg]

/-- Witness for `sendParent_orphan_noop`: an actor with no recorded
parent. -/
theorem sendParent_orphan_noop_witness :
    sendParentTo
      { env := [], procs := [(0, { machineIdx := 0 })], nextSession := 1 } 0
      { type := "PING" } =
      { env := [], procs := [(0, { machineIdx := 0 })], nextSession := 1 } :=
  sendParent_orphan_noop _ 0 _ { machineIdx := 0 } (by decide) (Or.inl rfl)

/-! ### The spawning-machines scenario and determinism -/

/-- C1: in the two-machine scenario, after the parent Interpreter is
started and sent `ADD\x7bid:42\x7d` followed by `SET_COMPLETE\x7bid:42\x7d`:
the spawned child (session 1) has reached `complete`, the parent
(session 0) has received the child's parent-addressed completion event
and moved from `active` to the final state `success`, its status is
done, and its onDone observers have fired. -/
theorem invoke_actors_scenario :
    (getProc todosRun 1).map Proc.state = some "complete" ∧
    (getProc todosRun 0).map Proc.state = some "success" ∧
    (getProc todosRun 0).map Proc.status = some .done ∧
    todosRun.doneNotified = [0] := by
  decide

theorem sysExec_deterministic {s r1 r2 : Sys}
    (h1 : SysExec s r1) (h2 : SysExec s r2) : r1 = r2 := by
  induction h1 generalizing r2 with
  | quiescent s hq =>
    cases h2 with
    | quiescent _ _ => rfl
    | step _ mid2 _ hs2 _ =>
      rw [hq] at hs2
      exact Option.noConfusion hs2
  | step s mid last hs h1' ih =>
    cases h2 with
    | quiescent _ hq =>
      rw [hq] at hs
      exact Option.noConfusion hs
    | step _ mid2 _ hs2 h2' =>
      have hm : mid = mid2 := by
        rw [hs] at hs2
        exact Option.some.inj hs2
      subst hm
      exact ih h2'

/-- C9: the Interpreter is a deterministic function of its inputs: any
two completed runs over the same machine definition, initial context
and ordered input event sequence end with the same final configuration
and context (indeed with identical final systems). -/
theorem interpreter_deterministic (env : List MachineDef) (machineIdx ctx0 : Nat)
    (events : List EventObj) (r1 r2 : Sys)
    (h1 : SysExec (loadRun env machineIdx ctx0 events) r1)
    (h2 : SysExec (loadRun env machineIdx ctx0 events) r2) :
    snapshotOf r1 0 = snapshotOf r2 0 ∧ r1 = r2 := by
  have he := sysExec_deterministic h1 h2
  exact ⟨by rw [he], he⟩

/-- Witness for `interpreter_deterministic`: two concrete completed runs
of the todos machine with no input events. -/
theorem interpreter_deterministic_witness :
    snapshotOf (drainAll 1 (loadRun todosEnv 1 0 [])) 0
      = snapshotOf (drainAll 1 (loadRun todosEnv 1 0 [])) 0 ∧
    drainAll 1 (loadRun todosEnv 1 0 []) = drainAll 1 (loadRun todosEnv 1 0 []) := by
  have hstep : stepSys (loadRun todosEnv 1 0 [])
      = some (drainAll 1 (loadRun todosEnv 1 0 [])) := by decide
  have hq : stepSys (drainAll 1 (loadRun todosEnv 1 0 [])) = none := by decide
  exact interpreter_deterministic todosEnv 1 0 [] _ _
    (SysExec.step _ _ _ hstep (SysExec.quiescent _ hq))
    (SysExec.step _ _ _ hstep (SysExec.quiescent _ hq))

/-! ### Lemmas about the session registry and event delivery -/

theorem lookupProc_cons (pr : Nat × Proc) (rest : List (Nat × Proc)) (t : Nat) :
    lookupProc (pr :: rest) t = if pr.1 = t then some pr.2 else lookupProc rest t := rfl

theorem lookupProc_map_update (l : List (Nat × Proc)) (pid t : Nat) (f : Proc → Proc) :
    lookupProc (l.map fun pr => if pr.1 = pid then (pr.1, f pr.2) else pr) t
      = if t = pid then (lookupProc l t).map f else lookupProc l t := by
  induction l with
  | nil => by_cases h : t = pid <;> simp [h, lookupProc]
  | cons pr rest ih =>
    simp only [List.map_cons]
    by_cases hp : pr.1 = pid
    · by_cases ht : pr.1 = t
      · subst hp
        subst ht
        simp [lookupProc_cons]
      · subst hp
        have hne : ¬t = pr.1 := fun he => ht he.symm
        simp [lookupProc_cons, ht, hne, ih]
    · by_cases ht : pr.1 = t
      · subst ht
        have hne : ¬pr.1 = pid := hp
        simp [lookupProc_cons, hne]
      · simp [lookupProc_cons, hp, ht, ih]

theorem getProc_updateProc (sys : Sys) (pid t : Nat) (f : Proc → Proc) :
    getProc (updateProc sys pid f) t
      = if t = pid then (getProc sys t).map f else getProc sys t :=
  lookupProc_map_update sys.procs pid t f

theorem getProc_updateProc_self (sys : Sys) (pid : Nat) (f : Proc → Proc) :
    getProc (updateProc sys pid f) pid = (getProc sys pid).map f := by
  rw [getProc_updateProc, if_pos rfl]

theorem getProc_updateProc_ne (sys : Sys) (pid t : Nat) (f : Proc → Proc)
    (h : t ≠ pid) : getProc (updateProc sys pid f) t = getProc sys t := by
  rw [getProc_updateProc, if_neg h]

theorem lookupProc_append_some {l1 : List (Nat × Proc)} (l2 : List (Nat × Proc))
    {t : Nat} {p : Proc} (h : lookupProc l1 t = some p) :
    lookupProc (l1 ++ l2) t = some p := by
  induction l1 with
  | nil => exact Option.noConfusion h
  | cons pr rest ih =>
    rw [lookupProc_cons] at h
    rw [List.cons_append, lookupProc_cons]
    by_cases hk : pr.1 = t
    · rw [if_pos hk] at h ⊢
      exact h
    · rw [if_neg hk] at h ⊢
      exact ih h

theorem enqueueEvent_none {sys : Sys} {t : Nat} (e : EventObj)
    (hg : getProc sys t = none) : enqueueEvent sys t e = sys := by
  simp only [enqueueEvent, hg]

theorem enqueueEvent_stopped {sys : Sys} {t : Nat} {p : Proc} (e : EventObj)
    (hg : getProc sys t = some p) (hs : p.status = .stopped) :
    enqueueEvent sys t e = sys := by
  simp only [enqueueEvent, hg]
  rw [if_pos hs]

theorem enqueueEvent_live {sys : Sys} {t : Nat} {p : Proc} (e : EventObj)
    (hg : getProc sys t = some p) (hs : ¬p.status = .stopped) :
    enqueueEvent sys t e
      = updateProc sys t fun q => { q with mailbox := q.mailbox ++ [e] } := by
  simp only [enqueueEvent, hg]
  rw [if_neg hs]

theorem getProc_enqueue_ne (sys : Sys) {t c : Nat} (e : EventObj) (h : c ≠ t) :
    getProc (enqueueEvent sys t e) c = getProc sys c := by
  cases hg : getProc sys t with
  | none => rw [enqueueEvent_none e hg]
  | some p =>
    by_cases hs : p.status = .stopped
    · rw [enqueueEvent_stopped e hg hs]
    · rw [enqueueEvent_live e hg hs, getProc_updateProc_ne _ _ _ _ h]

theorem getProc_enqueue_self {sys : Sys} {t : Nat} {p : Proc} (e : EventObj)
    (hg : getProc sys t = some p) (hs : ¬p.status = .stopped) :
    getProc (enqueueEvent sys t e) t = some { p with mailbox := p.mailbox ++ [e] } := by
  rw [enqueueEvent_live e hg hs, getProc_updateProc_self, hg]
  rfl

theorem enqueue_mailbox_mono {sys : Sys} {c : Nat} {q : Proc} {ev : EventObj}
    (t : Nat) (e : EventObj)
    (hg : getProc sys c = some q) (hev : ev ∈ q.mailbox) :
    ∃ q2, getProc (enqueueEvent sys t e) c = some q2 ∧ ev ∈ q2.mailbox := by
  by_cases hct : c = t
  · subst hct
    by_cases hs : q.status = .stopped
    · rw [enqueueEvent_stopped e hg hs]
      exact ⟨q, hg, hev⟩
    · refine ⟨_, getProc_enqueue_self e hg hs, ?_⟩
      simp only [List.mem_append]
      exact Or.inl hev
  · rw [getProc_enqueue_ne sys e hct]
    exact ⟨q, hg, hev⟩

theorem foldl_enqueue_mailbox_mono (L : List Nat) (e : EventObj) :
    ∀ {sys : Sys} {c : Nat} {q : Proc} {ev : EventObj},
    getProc sys c = some q → ev ∈ q.mailbox →
    ∃ q2, getProc (L.foldl (fun s c2 => enqueueEvent s c2 e) sys) c = some q2 ∧
      ev ∈ q2.mailbox := by
  induction L with
  | nil => exact fun hg hev => ⟨_, hg, hev⟩
  | cons t rest ih =>
    intro sys c q ev hg hev
    rcases enqueue_mailbox_mono t e hg hev with ⟨q1, hg1, hev1⟩
    exact ih hg1 hev1

theorem foldl_enqueue_not_mem (L : List Nat) (e : EventObj) :
    ∀ {sys : Sys} {c : Nat}, c ∉ L →
    getProc (L.foldl (fun s c2 => enqueueEvent s c2 e) sys) c = getProc sys c := by
  induction L with
  | nil => exact fun _ => rfl
  | cons t rest ih =>
    intro sys c h
    have hct : c ≠ t := fun he => h (by rw [he]; exact List.mem_cons_self t rest)
    have hrest : c ∉ rest := fun hm => h (List.mem_cons_of_mem t hm)
    rw [List.foldl_cons, ih hrest, getProc_enqueue_ne sys e hct]

theorem applyForwards_mailbox_mono {sys : Sys} {c : Nat} {q : Proc} {ev : EventObj}
    (pid : Nat) (e : EventObj)
    (hg : getProc sys c = some q) (hev : ev ∈ q.mailbox) :
    ∃ q2, getProc (applyForwards sys pid e) c = some q2 ∧ ev ∈ q2.mailbox := by
  unfold applyForwards
  by_cases hr : reservedEvent e = true
  · rw [if_pos hr]
    exact ⟨q, hg, hev⟩
  · rw [if_neg hr]
    cases hgp : getProc sys pid with
    | none => exact ⟨q, hg, hev⟩
    | some p => exact foldl_enqueue_mailbox_mono p.autoForwardChildren e hg hev

/-- C5: autoForward behaviour.  Processing pipelines the forwarding phase
after the owner's own processing; a child not registered with
autoForward never receives a forwarded event; spawning with default
options registers no autoForward child; and a registered child receives
every non-synthesized event the owner processes, appended unmodified to
its Mailbox after the owner's own processing. -/
theorem autoForward_forwarding :
    (∀ sys pid e, processEvent sys pid e
        = applyForwards (syncPhase sys (coreProcess sys pid e) pid) pid e) ∧
    (∀ sys pid e c, (∀ p, getProc sys pid = some p → c ∉ p.autoForwardChildren) →
      getProc (applyForwards sys pid e) c = getProc sys c) ∧
    (∀ sys pid mi key p p2, getProc sys pid = some p →
      getProc (spawnChildProc sys pid mi {} key) pid = some p2 →
      p2.autoForwardChildren = p.autoForwardChildren) ∧
    (∀ sys pid e c p q, getProc sys pid = some p →
      c ∈ p.autoForwardChildren → p.autoForwardChildren.Nodup →
      reservedEvent e = false → getProc sys c = some q → ¬q.status = .stopped →
      getProc (applyForwards sys pid e) c
        = some { q with mailbox := q.mailbox ++ [e] }) := by
  refine ⟨fun sys pid e => rfl, ?_, ?_, ?_⟩
  · intro sys pid e c h
    unfold applyForwards
    by_cases hr : reservedEvent e = true
    · rw [if_pos hr]
    · rw [if_neg hr]
      cases hgp : getProc sys pid with
      | none => rfl
      | some p => exact foldl_enqueue_not_mem p.autoForwardChildren e (h p hgp)
  · intro sys pid mi key p p2 hg hg2
    unfold spawnChildProc at hg2
    rw [getProc_updateProc_self] at hg2
    have hg1 : getProc
        { sys with
          procs := sys.procs ++
            [(sys.nextSession,
              { machineIdx := mi, mailbox := [initEvent], parent := some pid })],
          nextSession := sys.nextSession + 1 } pid = some p :=
      lookupProc_append_some _ hg
    rw [hg1] at hg2
    cases hg2
    rfl
  · intro sys pid e c p q hg hmem hnd hr hgc hqs
    unfold applyForwards
    rw [if_neg (by rw [hr]; exact Bool.false_ne_true), hg]
    show getProc
        (List.foldl (fun s c2 => enqueueEvent s c2 e) sys p.autoForwardChildren) c
      = some { q with mailbox := q.mailbox ++ [e] }
    rcases List.append_of_mem hmem with ⟨L1, L2, hL⟩
    rw [hL, List.nodup_append] at hnd
    have hc1 : c ∉ L1 := fun hc => (hnd.2.2 hc (List.mem_cons_self c L2)).elim
    have hc2 : c ∉ L2 := (List.nodup_cons.mp hnd.2.1).1
    rw [hL, List.foldl_append, List.foldl_cons]
    show getProc
        (List.foldl (fun s c2 => enqueueEvent s c2 e)
          (enqueueEvent
            (List.foldl (fun s c2 => enqueueEvent s c2 e) sys L1) c e) L2) c
      = some { q with mailbox := q.mailbox ++ [e] }
    have hg1 : getProc (List.foldl (fun s c2 => enqueueEvent s c2 e) sys L1) c
        = some q := by
      rw [foldl_enqueue_not_mem L1 e hc1, hgc]
    rw [foldl_enqueue_not_mem L2 e hc2, getProc_enqueue_self e hg1 hqs]

/-- Witness for `autoForward_forwarding`: concrete systems exercising
each conjunct — pipelining, a non-registered child left untouched, a
default spawn registering nothing, and a registered child receiving the
forwarded event. -/
theorem autoForward_forwarding_witness :
    processEvent { env := [], procs := [], nextSession := 0 } 0 { type := "PING" }
      = applyForwards
          (syncPhase { env := [], procs := [], nextSession := 0 }
            (coreProcess { env := [], procs := [], nextSession := 0 } 0
              { type := "PING" }) 0) 0 { type := "PING" } ∧
    getProc
      (applyForwards { env := [], procs := [(0, { machineIdx := 0 })], nextSession := 1 }
        0 { type := "PING" }) 5
      = getProc { env := [], procs := [(0, { machineIdx := 0 })], nextSession := 1 } 5 ∧
    Proc.autoForwardChildren { machineIdx := 0, refs := [(7, 1)] }
      = Proc.autoForwardChildren { machineIdx := 0 } ∧
    getProc
      (applyForwards
        { env := [],
          procs := [(0, { machineIdx := 0, autoForwardChildren := [1] }),
            (1, { machineIdx := 0 })],
          nextSession := 2 } 0 { type := "PING" }) 1
      = some { machineIdx := 0, mailbox := [{ type := "PING" }] } := by
  refine ⟨autoForward_forwarding.1 _ 0 _, ?_, ?_, ?_⟩
  · apply autoForward_forwarding.2.1
    intro p hp
    injection hp with h
    rw [← h]
    decide
  · exact autoForward_forwarding.2.2.1
      { env := [], procs := [(0, { machineIdx := 0 })], nextSession := 1 } 0 0 7
      { machineIdx := 0 } { machineIdx := 0, refs := [(7, 1)] } rfl rfl
  · exact autoForward_forwarding.2.2.2
      { env := [],
        procs := [(0, { machineIdx := 0, autoForwardChildren := [1] }),
          (1, { machineIdx := 0 })],
        nextSession := 2 } 0 { type := "PING" } 1
      { machineIdx := 0, autoForwardChildren := [1] } { machineIdx := 0 }
      rfl (by decide) (by decide) (by decide) rfl (by decide)

/-! ### Environment preservation and membership lemmas -/

theorem lookupProc_mem : ∀ {l : List (Nat × Proc)} {t : Nat} {q : Proc},
    lookupProc l t = some q → (t, q) ∈ l := by
  intro l
  induction l with
  | nil =>
    intro t q h
    exact Option.noConfusion h
  | cons pr rest ih =>
    intro t q h
    rw [lookupProc_cons] at h
    by_cases hk : pr.1 = t
    · rw [if_pos hk] at h
      have hq : pr.2 = q := Option.some.inj h
      have hpr : (t, q) = pr := by
        cases pr
        cases hk
        cases hq
        rfl
      rw [hpr]
      exact List.mem_cons_self _ _
    · rw [if_neg hk] at h
      exact List.mem_cons_of_mem _ (ih h)

theorem getProc_mem {sys : Sys} {t : Nat} {q : Proc} (h : getProc sys t = some q) :
    (t, q) ∈ sys.procs :=
  lookupProc_mem h

theorem mem_of_tail {x : EventObj} {l : List EventObj} (h : x ∈ l.tail) : x ∈ l := by
  cases l with
  | nil => exact h
  | cons a rest => exact List.mem_cons_of_mem a h

theorem env_updateProc (sys : Sys) (pid : Nat) (f : Proc → Proc) :
    (updateProc sys pid f).env = sys.env := rfl

theorem env_enqueue (sys : Sys) (t : Nat) (e : EventObj) :
    (enqueueEvent sys t e).env = sys.env := by
  cases hg : getProc sys t with
  | none => rw [enqueueEvent_none e hg]
  | some p =>
    by_cases hs : p.status = .stopped
    · rw [enqueueEvent_stopped e hg hs]
    · rw [enqueueEvent_live e hg hs]
      rfl

theorem env_raise (sys : Sys) (pid : Nat) (e : EventObj) :
    (raiseEvent sys pid e).env = sys.env := rfl

theorem env_sendParentTo (sys : Sys) (selfId : Nat) (e : EventObj) :
    (sendParentTo sys selfId e).env = sys.env := by
  cases hg : getProc sys selfId with
  | none => simp [sendParentTo, hg]
  | some p =>
    cases hp : p.parent with
    | none => simp [sendParentTo, hg, hp]
    | some par =>
      cases hgp : getProc sys par with
      | none => simp [sendParentTo, hg, hp, hgp]
      | some q =>
        by_cases hs : q.status = Status.running
        · simp [sendParentTo, hg, hp, hgp, hs, env_enqueue]
        · simp [sendParentTo, hg, hp, hgp, hs]

theorem env_spawnChild (sys : Sys) (selfId mi : Nat) (opts : SpawnOpts) (key : Nat) :
    (spawnChildProc sys selfId mi opts key).env = sys.env := rfl

theorem env_execAction (pid : Nat) (e : EventObj) (sys : Sys) (a : ActionSpec) :
    (execAction pid e sys a).env = sys.env := by
  cases a with
  | sendParentA t => exact env_sendParentTo sys pid _
  | raiseA t => rfl
  | spawnAtEventId mi opts => rfl
  | sendToRefAtEventId t =>
    cases hg : getProc sys pid with
    | none => simp [execAction, hg]
    | some p =>
      cases hr : lookupRef p.refs e.id with
      | none => simp [execAction, hg, hr]
      | some ch => simp [execAction, hg, hr, env_enqueue]
  | assignValue n => rfl

theorem env_execActions (pid : Nat) (e : EventObj) :
    ∀ (acts : List ActionSpec) (sys : Sys), (execActions pid e sys acts).env = sys.env := by
  intro acts
  induction acts with
  | nil => exact fun sys => rfl
  | cons a rest ih =>
    intro sys
    show (execActions pid e (execAction pid e sys a) rest).env = sys.env
    rw [ih, env_execAction]

theorem env_enterState (sys : Sys) (pid : Nat) (tgt : String) (e : EventObj) :
    (enterState sys pid tgt e).env = sys.env := by
  cases hg : getProc sys pid with
  | none => simp [enterState, hg]
  | some p =>
    cases hsd : (machineOf sys p).bind fun m => getStateDef m tgt with
    | none => simp [enterState, hg, hsd]
    | some sd =>
      by_cases hfin : sd.isFinal
      · cases hpp : p.parent with
        | none =>
          simp [enterState, hg, hsd, hfin, hpp, env_execActions, env_updateProc]
        | some par =>
          simp [enterState, hg, hsd, hfin, hpp, env_enqueue, env_execActions,
            env_updateProc]
      · simp [enterState, hg, hsd, hfin, env_execActions, env_updateProc]

theorem env_coreProcess (sys : Sys) (pid : Nat) (e : EventObj) :
    (coreProcess sys pid e).env = sys.env := by
  cases hg : getProc sys pid with
  | none => simp [coreProcess, hg]
  | some p =>
    cases hm : machineOf sys p with
    | none => simp [coreProcess, hg, hm]
    | some m =>
      by_cases hinit : (e.type == "xstate.init" && p.state == "") = true
      · simp [coreProcess, hg, hm, hinit, env_enterState]
      · cases ht : resolveTransition m p.state e.type with
        | none => simp [coreProcess, hg, hm, hinit, ht]
        | some t =>
          cases htg : t.target with
          | none => simp [coreProcess, hg, hm, hinit, ht, htg, env_execActions]
          | some tgt =>
            simp [coreProcess, hg, hm, hinit, ht, htg, env_enterState, env_execActions]

theorem env_syncPhase (old sys2 : Sys) (pid : Nat) :
    (syncPhase old sys2 pid).env = sys2.env := by
  by_cases hc2 : snapshotOf sys2 pid = snapshotOf old pid
  · simp [syncPhase, hc2]
  · cases hg : getProc sys2 pid with
    | none => simp [syncPhase, hc2, hg]
    | some p =>
      cases hpp : p.parent with
      | none => simp [syncPhase, hc2, hg, hpp]
      | some par =>
        cases hgp : getProc sys2 par with
        | none => simp [syncPhase, hc2, hg, hpp, hgp]
        | some q =>
          by_cases hsync : pid ∈ q.syncChildren
          · simp [syncPhase, hc2, hg, hpp, hgp, hsync, env_enqueue]
          · simp [syncPhase, hc2, hg, hpp, hgp, hsync]

theorem env_foldl_enqueue (e : EventObj) :
    ∀ (L : List Nat) (sys : Sys),
      (L.foldl (fun s c2 => enqueueEvent s c2 e) sys).env = sys.env := by
  intro L
  induction L with
  | nil => exact fun sys => rfl
  | cons t rest ih =>
    intro sys
    rw [List.foldl_cons, ih, env_enqueue]

theorem env_applyForwards (sys : Sys) (pid : Nat) (e : EventObj) :
    (applyForwards sys pid e).env = sys.env := by
  by_cases hr : reservedEvent e = true
  · simp [applyForwards, hr]
  · cases hg : getProc sys pid with
    | none => simp [applyForwards, hr, hg]
    | some p => simp [applyForwards, hr, hg, env_foldl_enqueue]

theorem env_processEvent (sys : Sys) (pid : Nat) (e : EventObj) :
    (processEvent sys pid e).env = sys.env := by
  unfold processEvent
  rw [env_applyForwards, env_syncPhase, env_coreProcess]

theorem env_popEvent (sys : Sys) (pid : Nat) : (popEvent sys pid).env = sys.env := rfl

theorem env_stepSys {sys sys2 : Sys} (h : stepSys sys = some sys2) :
    sys2.env = sys.env := by
  unfold stepSys at h
  cases hp : pickPending sys with
  | none =>
    rw [hp] at h
    exact Option.noConfusion h
  | some pr =>
    obtain ⟨pid, p⟩ := pr
    rw [hp] at h
    cases hm : p.mailbox with
    | nil =>
      simp only [hm] at h
      exact Option.noConfusion h
    | cons e rest =>
      simp only [hm] at h
      have he : processEvent (popEvent sys pid) pid e = sys2 := Option.some.inj h
      rw [← he, env_processEvent, env_popEvent]

/-! ### Reserved-free extraction lemmas -/

theorem machineReservedFree_split {m : MachineDef} (hm : machineReservedFree m = true) :
    (m.states.all fun s =>
      s.2.entry.all actionReservedFree &&
        (s.2.onTable.all fun tr => transitionReservedFree tr.2)) = true ∧
    (m.onTable.all fun tr => transitionReservedFree tr.2) = true := by
  unfold machineReservedFree at hm
  simp only [Bool.and_eq_true] at hm
  exact hm

theorem machineReservedFree_state {m : MachineDef} {tgt : String} {sd : StateDef}
    (hm : machineReservedFree m = true) (hsd : getStateDef m tgt = some sd) :
    sd.entry.all actionReservedFree = true ∧
    (sd.onTable.all fun tr => transitionReservedFree tr.2) = true := by
  unfold getStateDef at hsd
  cases hf : m.states.find? fun s => s.1 == tgt with
  | none =>
    rw [hf] at hsd
    exact Option.noConfusion hsd
  | some en =>
    rw [hf, Option.map_some'] at hsd
    cases hsd
    have h1 := List.all_eq_true.mp (machineReservedFree_split hm).1 en
      (List.mem_of_find?_eq_some hf)
    simp only [Bool.and_eq_true] at h1
    exact h1

theorem lookupTransition_all {table : List (String × TransitionDef)} {etype : String}
    {t : TransitionDef}
    (hall : (table.all fun tr => transitionReservedFree tr.2) = true)
    (ht : lookupTransition table etype = some t) : transitionReservedFree t = true := by
  unfold lookupTransition at ht
  cases hf : table.find? fun tr => tr.1 == etype || tr.1 == "*" with
  | none =>
    rw [hf] at ht
    exact Option.noConfusion ht
  | some en =>
    rw [hf, Option.map_some'] at ht
    cases ht
    exact List.all_eq_true.mp hall en (List.mem_of_find?_eq_some hf)

theorem machineReservedFree_resolve {m : MachineDef} {st etype : String}
    {t : TransitionDef} (hm : machineReservedFree m = true)
    (ht : resolveTransition m st etype = some t) : transitionReservedFree t = true := by
  unfold resolveTransition at ht
  cases hsd : getStateDef m st with
  | none =>
    rw [hsd] at ht
    exact lookupTransition_all (machineReservedFree_split hm).2 ht
  | some sd =>
    rw [hsd] at ht
    cases hlt : lookupTransition sd.onTable etype with
    | none =>
      simp only [hlt] at ht
      exact lookupTransition_all (machineReservedFree_split hm).2 ht
    | some t0 =>
      simp only [hlt] at ht
      cases ht
      exact lookupTransition_all (machineReservedFree_state hm hsd).2 hlt

theorem envReservedFree_machineOf {sys : Sys} {p : Proc} {m : MachineDef}
    (hres : envReservedFree sys.env = true) (hm : machineOf sys p = some m) :
    machineReservedFree m = true := by
  have hmem : m ∈ sys.env := by
    unfold machineOf at hm
    exact List.get?_mem hm
  exact List.all_eq_true.mp hres m hmem

/-! ### The update-freedom invariant is preserved by every operation -/

theorem updateEvent_ne_of_id {c d : Nat} (h : d ≠ c) : updateEvent d ≠ updateEvent c :=
  fun he => h (congrArg EventObj.id he)

theorem UpdateFree_updateProc {c : Nat} {sys : Sys} (pid : Nat) {f : Proc → Proc}
    (h : UpdateFree c sys)
    (hf : ∀ q, c ∉ q.syncChildren → c ∉ (f q).syncChildren)
    (hm : ∀ q, updateEvent c ∉ q.mailbox → updateEvent c ∉ (f q).mailbox) :
    UpdateFree c (updateProc sys pid f) := by
  refine ⟨h.1, ?_, ?_⟩
  · intro pr hpr
    have hpr2 : pr ∈ sys.procs.map fun pr => if pr.1 = pid then (pr.1, f pr.2) else pr :=
      hpr
    rcases List.mem_map.mp hpr2 with ⟨pr0, hpr0, hmap⟩
    rw [← hmap]
    by_cases hp : pr0.1 = pid
    · rw [if_pos hp]
      exact hf pr0.2 (h.2.1 pr0 hpr0)
    · rw [if_neg hp]
      exact h.2.1 pr0 hpr0
  · intro pr hpr
    have hpr2 : pr ∈ sys.procs.map fun pr => if pr.1 = pid then (pr.1, f pr.2) else pr :=
      hpr
    rcases List.mem_map.mp hpr2 with ⟨pr0, hpr0, hmap⟩
    rw [← hmap]
    by_cases hp : pr0.1 = pid
    · rw [if_pos hp]
      exact hm pr0.2 (h.2.2 pr0 hpr0)
    · rw [if_neg hp]
      exact h.2.2 pr0 hpr0

theorem UpdateFree_enqueue {c : Nat} {sys : Sys} (t : Nat) {e : EventObj}
    (h : UpdateFree c sys) (he : e ≠ updateEvent c) :
    UpdateFree c (enqueueEvent sys t e) := by
  cases hg : getProc sys t with
  | none =>
    rw [enqueueEvent_none e hg]
    exact h
  | some p =>
    by_cases hs : p.status = .stopped
    · rw [enqueueEvent_stopped e hg hs]
      exact h
    · rw [enqueueEvent_live e hg hs]
      refine UpdateFree_updateProc t h (fun q hq => hq) ?_
      intro q hq hmem
      rcases List.mem_append.mp hmem with hmem | hmem
      · exact hq hmem
      · rw [List.mem_singleton] at hmem
        exact he hmem.symm

theorem UpdateFree_raise {c : Nat} {sys : Sys} (pid : Nat) {e : EventObj}
    (h : UpdateFree c sys) (he : e ≠ updateEvent c) :
    UpdateFree c (raiseEvent sys pid e) := by
  refine UpdateFree_updateProc pid h (fun q hq => hq) ?_
  intro q hq hmem
  rcases List.mem_cons.mp hmem with hmem | hmem
  · exact he hmem.symm
  · exact hq hmem

theorem UpdateFree_sendParentTo {c : Nat} {sys : Sys} (selfId : Nat) {e : EventObj}
    (h : UpdateFree c sys) (he : e ≠ updateEvent c) :
    UpdateFree c (sendParentTo sys selfId e) := by
  cases hg : getProc sys selfId with
  | none =>
    simp only [sendParentTo, hg]
    exact h
  | some p =>
    cases hpp : p.parent with
    | none =>
      simp only [sendParentTo, hg, hpp]
      exact h
    | some par =>
      cases hgp : getProc sys par with
      | none =>
        simp only [sendParentTo, hg, hpp, hgp]
        exact h
      | some q =>
        by_cases hs : q.status = Status.running
        · simp only [sendParentTo, hg, hpp, hgp, if_pos hs]
          exact UpdateFree_enqueue par h he
        · simp only [sendParentTo, hg, hpp, hgp, if_neg hs]
          exact h

theorem UpdateFree_spawnChild {c : Nat} {sys : Sys} (selfId mi : Nat) (opts : SpawnOpts)
    (key : Nat) (h : UpdateFree c sys) :
    UpdateFree c (spawnChildProc sys selfId mi opts key) := by
  have hlt : c < sys.nextSession := h.1
  have h1 : UpdateFree c
      { sys with
        procs := sys.procs ++
          [(sys.nextSession,
            { machineIdx := mi, mailbox := [initEvent], parent := some selfId })],
        nextSession := sys.nextSession + 1 } := by
    refine ⟨Nat.lt_succ_of_lt hlt, ?_, ?_⟩
    · intro pr hpr
      have hpr2 : pr ∈ sys.procs ++
          [(sys.nextSession,
            ({ machineIdx := mi, mailbox := [initEvent],
               parent := some selfId } : Proc))] := hpr
      rcases List.mem_append.mp hpr2 with hm | hm
      · exact h.2.1 pr hm
      · rw [List.mem_singleton] at hm
        rw [hm]
        simp
    · intro pr hpr
      have hpr2 : pr ∈ sys.procs ++
          [(sys.nextSession,
            ({ machineIdx := mi, mailbox := [initEvent],
               parent := some selfId } : Proc))] := hpr
      rcases List.mem_append.mp hpr2 with hm | hm
      · exact h.2.2 pr hm
      · rw [List.mem_singleton] at hm
        rw [hm]
        intro hmem
        rw [List.mem_singleton] at hmem
        have hx : "xstate.update" = "xstate.init" := congrArg EventObj.type hmem
        exact absurd hx (by decide)
  refine UpdateFree_updateProc selfId h1 ?_ (fun q hq => hq)
  intro q hq
  show c ∉ (if opts.sync = true then sys.nextSession :: q.syncChildren
    else q.syncChildren)
  by_cases hsy : opts.sync = true
  · rw [if_pos hsy]
    intro hmem
    rcases List.mem_cons.mp hmem with hm | hm
    · exact absurd hm (Nat.ne_of_lt hlt)
    · exact hq hm
  · rw [if_neg hsy]
    exact hq

theorem UpdateFree_execAction {c : Nat} (pid : Nat) (e : EventObj) {sys : Sys}
    {a : ActionSpec} (h : UpdateFree c sys) (hfree : actionReservedFree a = true) :
    UpdateFree c (execAction pid e sys a) := by
  cases a with
  | sendParentA t =>
    refine UpdateFree_sendParentTo pid h ?_
    intro heq
    have ht : t = "xstate.update" := congrArg EventObj.type heq
    rw [ht] at hfree
    exact absurd hfree (by decide)
  | raiseA t =>
    refine UpdateFree_raise pid h ?_
    intro heq
    have ht : t = "xstate.update" := congrArg EventObj.type heq
    rw [ht] at hfree
    exact absurd hfree (by decide)
  | spawnAtEventId mi opts => exact UpdateFree_spawnChild pid mi opts e.id h
  | sendToRefAtEventId t =>
    cases hg : getProc sys pid with
    | none =>
      simp only [execAction, hg]
      exact h
    | some p =>
      cases hr : lookupRef p.refs e.id with
      | none =>
        simp only [execAction, hg, hr]
        exact h
      | some ch =>
        simp only [execAction, hg, hr]
        refine UpdateFree_enqueue ch h ?_
        intro heq
        have ht : t = "xstate.update" := congrArg EventObj.type heq
        rw [ht] at hfree
        exact absurd hfree (by decide)
  | assignValue n =>
    exact UpdateFree_updateProc pid h (fun q hq => hq) (fun q hq => hq)

theorem UpdateFree_execActions {c : Nat} (pid : Nat) (e : EventObj) :
    ∀ (acts : List ActionSpec) (sys : Sys), UpdateFree c sys →
    acts.all actionReservedFree = true → UpdateFree c (execActions pid e sys acts) := by
  intro acts
  induction acts with
  | nil => exact fun sys h _ => h
  | cons a rest ih =>
    intro sys h hfree
    simp only [List.all_cons, Bool.and_eq_true] at hfree
    exact ih (execAction pid e sys a) (UpdateFree_execAction pid e h hfree.1) hfree.2

theorem UpdateFree_doneNotified {c : Nat} {sys : Sys} (d : List Nat)
    (h : UpdateFree c sys) : UpdateFree c { sys with doneNotified := d } :=
  ⟨h.1, h.2.1, h.2.2⟩

theorem UpdateFree_enterState {c : Nat} {sys : Sys} (pid : Nat) (tgt : String)
    (e : EventObj) (hres : envReservedFree sys.env = true) (h : UpdateFree c sys) :
    UpdateFree c (enterState sys pid tgt e) := by
  cases hg : getProc sys pid with
  | none =>
    simp only [enterState, hg]
    exact h
  | some p =>
    cases hsd : (machineOf sys p).bind fun m => getStateDef m tgt with
    | none =>
      simp only [enterState, hg, hsd]
      exact h
    | some sd =>
      rcases Option.bind_eq_some.mp hsd with ⟨m, hmo, hgs⟩
      have hmf : machineReservedFree m = true := envReservedFree_machineOf hres hmo
      have hentry := (machineReservedFree_state hmf hgs).1
      have h2 : UpdateFree c
          (execActions pid e (updateProc sys pid fun q => { q with state := tgt })
            sd.entry) :=
        UpdateFree_execActions pid e sd.entry _
          (UpdateFree_updateProc pid h (fun q hq => hq) (fun q hq => hq)) hentry
      by_cases hfin : sd.isFinal = true
      · cases hpp : p.parent with
        | none =>
          simp only [enterState, hg, hsd, if_pos hfin, hpp]
          exact UpdateFree_doneNotified _
            (UpdateFree_updateProc pid h2 (fun q hq => hq) (fun q hq => hq))
        | some par =>
          simp only [enterState, hg, hsd, if_pos hfin, hpp]
          refine UpdateFree_enqueue par
            (UpdateFree_doneNotified _
              (UpdateFree_updateProc pid h2 (fun q hq => hq) (fun q hq => hq))) ?_
          intro heq
          have hx : "done.invoke" = "xstate.update" := congrArg EventObj.type heq
          exact absurd hx (by decide)
      · simp only [enterState, hg, hsd, if_neg hfin]
        exact h2

theorem UpdateFree_coreProcess {c : Nat} {sys : Sys} (pid : Nat) (e : EventObj)
    (hres : envReservedFree sys.env = true) (h : UpdateFree c sys) :
    UpdateFree c (coreProcess sys pid e) := by
  cases hg : getProc sys pid with
  | none =>
    simp only [coreProcess, hg]
    exact h
  | some p =>
    cases hm : machineOf sys p with
    | none =>
      simp only [coreProcess, hg, hm]
      exact h
    | some m =>
      have hmf := envReservedFree_machineOf hres hm
      by_cases hinit : (e.type == "xstate.init" && p.state == "") = true
      · simp only [coreProcess, hg, hm, if_pos hinit]
        exact UpdateFree_enterState pid m.initial e hres h
      · simp only [coreProcess, hg, hm, if_neg hinit]
        cases ht : resolveTransition m p.state e.type with
        | none => exact h
        | some t =>
          have htf : t.actions.all actionReservedFree = true :=
            machineReservedFree_resolve hmf ht
          have h1 : UpdateFree c (execActions pid e sys t.actions) :=
            UpdateFree_execActions pid e t.actions sys h htf
          show UpdateFree c (match t.target with
            | none => execActions pid e sys t.actions
            | some tgt => enterState (execActions pid e sys t.actions) pid tgt e)
          cases htg : t.target with
          | none => exact h1
          | some tgt =>
            refine UpdateFree_enterState pid tgt e ?_ h1
            rw [env_execActions]
            exact hres

theorem UpdateFree_syncPhase {c : Nat} (old : Sys) {sys2 : Sys} (pid : Nat)
    (h : UpdateFree c sys2) : UpdateFree c (syncPhase old sys2 pid) := by
  by_cases hch : snapshotOf sys2 pid = snapshotOf old pid
  · simp only [syncPhase, if_pos hch]
    exact h
  · simp only [syncPhase, if_neg hch]
    cases hg : getProc sys2 pid with
    | none => exact h
    | some p =>
      show UpdateFree c (match p.parent with
        | none => sys2
        | some par =>
          match getProc sys2 par with
          | none => sys2
          | some q =>
            if pid ∈ q.syncChildren then enqueueEvent sys2 par (updateEvent pid)
            else sys2)
      cases hpp : p.parent with
      | none => exact h
      | some par =>
        cases hgp : getProc sys2 par with
        | none =>
          simp only [hgp]
          exact h
        | some q =>
          simp only [hgp]
          by_cases hsync : pid ∈ q.syncChildren
          · rw [if_pos hsync]
            have hnc : c ∉ q.syncChildren := h.2.1 (par, q) (getProc_mem hgp)
            have hne : pid ≠ c := fun he => hnc (he ▸ hsync)
            exact UpdateFree_enqueue par h (updateEvent_ne_of_id hne)
          · rw [if_neg hsync]
            exact h

theorem UpdateFree_foldl_enqueue {c : Nat} {e : EventObj} (he : e ≠ updateEvent c) :
    ∀ (L : List Nat) (sys : Sys), UpdateFree c sys →
    UpdateFree c (L.foldl (fun s c2 => enqueueEvent s c2 e) sys) := by
  intro L
  induction L with
  | nil => exact fun sys h => h
  | cons t rest ih =>
    intro sys h
    rw [List.foldl_cons]
    exact ih (enqueueEvent sys t e) (UpdateFree_enqueue t h he)

theorem UpdateFree_applyForwards {c : Nat} {sys : Sys} (pid : Nat) (e : EventObj)
    (h : UpdateFree c sys) : UpdateFree c (applyForwards sys pid e) := by
  by_cases hr : reservedEvent e = true
  · simp only [applyForwards, if_pos hr]
    exact h
  · simp only [applyForwards, if_neg hr]
    cases hg : getProc sys pid with
    | none => exact h
    | some p =>
      have he : e ≠ updateEvent c := by
        intro heq
        apply hr
        rw [heq]
        rfl
      exact UpdateFree_foldl_enqueue he p.autoForwardChildren sys h

theorem UpdateFree_popEvent {c : Nat} {sys : Sys} (pid : Nat) (h : UpdateFree c sys) :
    UpdateFree c (popEvent sys pid) := by
  refine UpdateFree_updateProc pid h (fun q hq => hq) ?_
  intro q hq hmem
  exact hq (mem_of_tail hmem)

theorem UpdateFree_processEvent {c : Nat} {sys : Sys} (pid : Nat) (e : EventObj)
    (hres : envReservedFree sys.env = true) (h : UpdateFree c sys) :
    UpdateFree c (processEvent sys pid e) :=
  UpdateFree_applyForwards pid e
    (UpdateFree_syncPhase sys pid (UpdateFree_coreProcess pid e hres h))

theorem UpdateFree_stepSys {c : Nat} {sys sys2 : Sys}
    (hs : stepSys sys = some sys2) (hres : envReservedFree sys.env = true)
    (h : UpdateFree c sys) : UpdateFree c sys2 := by
  unfold stepSys at hs
  cases hp : pickPending sys with
  | none =>
    rw [hp] at hs
    exact Option.noConfusion hs
  | some pr =>
    obtain ⟨pid, p⟩ := pr
    rw [hp] at hs
    cases hm : p.mailbox with
    | nil =>
      simp only [hm] at hs
      exact Option.noConfusion hs
    | cons e rest =>
      simp only [hm] at hs
      have he : processEvent (popEvent sys pid) pid e = sys2 := Option.some.inj hs
      rw [← he]
      exact UpdateFree_processEvent pid e hres (UpdateFree_popEvent pid h)

theorem UpdateFree_drainAll {c : Nat} :
    ∀ (fuel : Nat) (sys : Sys), envReservedFree sys.env = true → UpdateFree c sys →
    UpdateFree c (drainAll fuel sys) := by
  intro fuel
  induction fuel with
  | zero => exact fun sys _ h => h
  | succ n ih =>
    intro sys hres h
    show UpdateFree c (match stepSys sys with
      | none => sys
      | some sysN => drainAll n sysN)
    cases hst : stepSys sys with
    | none => exact h
    | some sysN =>
      simp only [hst]
      refine ih sysN ?_ (UpdateFree_stepSys hst hres h)
      rw [env_stepSys hst]
      exact hres

theorem syncPhase_update_mem {old sys2 : Sys} {c par : Nat} {p2 q2 : Proc}
    (hc : getProc sys2 c = some p2) (hpar : p2.parent = some par)
    (hq : getProc sys2 par = some q2) (hsync : c ∈ q2.syncChildren)
    (hstat : ¬q2.status = .stopped)
    (hchange : ¬snapshotOf sys2 c = snapshotOf old c) :
    ∃ q3, getProc (syncPhase old sys2 c) par = some q3 ∧
      updateEvent c ∈ q3.mailbox := by
  simp only [syncPhase, if_neg hchange, hc, hpar, hq, if_pos hsync]
  refine ⟨_, getProc_enqueue_self (updateEvent c) hq hstat, ?_⟩
  simp

/-- C4: SyncBridge behaviour.  First, when a child registered with
`sync=true` processes an event that changes its snapshot, a reserved
"update" event carrying the child's id reaches the parent's Mailbox
within the same processing step (no transition-table entry of the
parent is consulted to generate it).  Second, for a child spawned with
`sync=false` or with no sync option, no such update event is ever
generated: a system in which the child is in no sync registry and no
update event carrying its id is pending stays that way under any number
of scheduling steps, as long as the machines use no reserved event
type. -/
theorem sync_update_generation :
    (∀ sys c par e p2 q2,
      getProc (coreProcess sys c e) c = some p2 →
      p2.parent = some par →
      getProc (coreProcess sys c e) par = some q2 →
      c ∈ q2.syncChildren → ¬q2.status = .stopped →
      ¬snapshotOf (coreProcess sys c e) c = snapshotOf sys c →
      ∃ q3, getProc (processEvent sys c e) par = some q3 ∧
        updateEvent c ∈ q3.mailbox) ∧
    (∀ sys c n, envReservedFree sys.env = true → UpdateFree c sys →
      UpdateFree c (drainAll n sys)) := by
  constructor
  · intro sys c par e p2 q2 hc hpar hq hsync hstat hchange
    rcases syncPhase_update_mem hc hpar hq hsync hstat hchange with ⟨q3, hg3, hmem3⟩
    exact applyForwards_mailbox_mono c e hg3 hmem3
  · intro sys c n hres h
    exact UpdateFree_drainAll n sys hres h

/-- Witness for `sync_update_generation`: a sync-registered child whose
initialization changes its snapshot delivers an update event to its
parent, and an update-free system without sync registrations stays
update-free across three scheduling steps. -/
theorem sync_update_generation_witness :
    (∃ q3,
      getProc
        (processEvent
          { env := [{ initial := "active", states := [("active", {})] }],
            procs := [(0, { machineIdx := 0, state := "foo", syncChildren := [1] }),
              (1, { machineIdx := 0, parent := some 0 })],
            nextSession := 2 } 1 initEvent) 0 = some q3 ∧
      updateEvent 1 ∈ q3.mailbox) ∧
    UpdateFree 0
      (drainAll 3
        { env := [{ initial := "active", states := [("active", {})] }],
          procs := [(0, { machineIdx := 0, mailbox := [initEvent] })],
          nextSession := 1 }) := by
  constructor
  · exact sync_update_generation.1
      { env := [{ initial := "active", states := [("active", {})] }],
        procs := [(0, { machineIdx := 0, state := "foo", syncChildren := [1] }),
          (1, { machineIdx := 0, parent := some 0 })],
        nextSession := 2 } 1 0 initEvent
      { machineIdx := 0, state := "active", parent := some 0 }
      { machineIdx := 0, state := "foo", syncChildren := [1] }
      (by decide) (by decide) (by decide) (by decide) (by decide) (by decide)
  · refine sync_update_generation.2
      { env := [{ initial := "active", states := [("active", {})] }],
        procs := [(0, { machineIdx := 0, mailbox := [initEvent] })],
        nextSession := 1 } 0 3 (by decide) ⟨by decide, ?_, ?_⟩ <;>
      · intro pr hpr
        rw [List.mem_singleton] at hpr
        rw [hpr]
        decide

end XStateSpec
